import Mathlib

/-!
Verification development for the bounded-section editors of the
react-native-scripts repository: the AndroidManifest `<queries>` reconciler
(`src/prepare/keychains_android.js`, function `setupKeychainsAndroid`) and
the iOS entitlements keychain-access-groups editor (`updateEntitlementsFile`
in the iOS keychain module).

Documents are modelled as their character sequences (`Str := List Char`).
The JavaScript primitives used by the source — `content.split("\n")`,
`newLines.join("\n")`, `String.prototype.includes`, `line.match(/^\s*/)[0]`,
and the one regular expression `/<queries\s*\/>|<queries\s*><\/queries>/`
used with `test`/`replace` — are embedded as executable Lean functions,
each annotated with the source lines it mirrors.
-/

set_option linter.unusedVariables false

/-- Characters of a document or line: the shallow embedding of a JS string. -/
abbrev Str := List Char

/-- Character list of a Lean string literal. -/
def strL (s : String) : Str := s.toList

/-- Newline, the separator of `split("\n")` / `join("\n")`. -/
def nlc : Char := '\n'

/-- The JS `content.split("\n")` (keychains_android.js:123,202; part_001:156). -/
def splitNL : Str → List Str
  | [] => [[]]
  | c :: cs =>
    if c = nlc then [] :: splitNL cs
    else (c :: (splitNL cs).headI) :: (splitNL cs).tail

/-- The JS `newLines.join("\n")` (keychains_android.js:186,251; part_001:191,223). -/
def joinNL : List Str → Str
  | [] => []
  | [l] => l
  | l :: l2 :: ls => l ++ nlc :: joinNL (l2 :: ls)

/-- The JS `s.includes(pat)` used throughout both modules. -/
def containsS : Str → Str → Bool
  | [], pat => pat.isEmpty
  | c :: t, pat => pat.isPrefixOf (c :: t) || containsS t pat

/-- The first-index search loops of the source
(keychains_android.js:129-136, 207-212): scanning `i = 0, 1, ...` and
recording the first index whose line satisfies `p`. -/
def findIdxO (p : Str → Bool) : List Str → Option Nat
  | [] => none
  | l :: ls => if p l then some 0 else (findIdxO p ls).map (· + 1)

/-- The JS whitespace class `\s`, restricted to the ASCII range (the
characters that occur in manifest and plist files). -/
def isJsWs (c : Char) : Bool :=
  c = ' ' || c = '\t' || c = '\n' || c = '\r' || c = '\x0b' || c = '\x0c'

/-- The JS `line.match(/^\s*/)[0]` (keychains_android.js:147,225). -/
def leadingWs (l : Str) : Str := l.takeWhile isJsWs

namespace SplitJoin

theorem splitNL_ne_nil (cs : Str) : splitNL cs ≠ [] := by
  cases cs with
  | nil => simp [splitNL]
  | cons c t =>
    simp only [splitNL]
    split <;> simp

theorem joinNL_cons_of_ne_nil (l : Str) (ls : List Str) (h : ls ≠ []) :
    joinNL (l :: ls) = l ++ nlc :: joinNL ls := by
  cases ls with
  | nil => exact absurd rfl h
  | cons a t => rfl

theorem joinNL_cons_cons (c : Char) (h : Str) (t : List Str) :
    joinNL ((c :: h) :: t) = c :: joinNL (h :: t) := by
  cases t with
  | nil => rfl
  | cons a t' => rfl

theorem joinNL_splitNL (cs : Str) : joinNL (splitNL cs) = cs := by
  induction cs with
  | nil => rfl
  | cons c t ih =>
    by_cases hc : c = nlc
    · rw [show splitNL (c :: t) = [] :: splitNL t by simp [splitNL, hc],
        joinNL_cons_of_ne_nil _ _ (splitNL_ne_nil t)]
      simp [hc, ih]
    · have hs : splitNL (c :: t) = (c :: (splitNL t).headI) :: (splitNL t).tail := by
        simp [splitNL, hc]
      rw [hs]
      cases ht : splitNL t with
      | nil => exact absurd ht (splitNL_ne_nil t)
      | cons h rest =>
        simp only [List.headI, List.tail]
        rw [joinNL_cons_cons]
        rw [ht] at ih
        rw [ih]

theorem not_mem_of_mem_splitNL (cs : Str) (l : Str) (hl : l ∈ splitNL cs) :
    nlc ∉ l := by
  induction cs generalizing l with
  | nil =>
    simp [splitNL] at hl
    simp [hl]
  | cons c t ih =>
    by_cases hc : c = nlc
    · rw [show splitNL (c :: t) = [] :: splitNL t by simp [splitNL, hc]] at hl
      rcases List.mem_cons.mp hl with h | h
      · simp [h]
      · exact ih l h
    · rw [show splitNL (c :: t) = (c :: (splitNL t).headI) :: (splitNL t).tail by
        simp [splitNL, hc]] at hl
      rcases List.mem_cons.mp hl with h | h
      · subst h
        intro hmem
        rcases List.mem_cons.mp hmem with h' | h'
        · exact hc h'.symm
        · cases ht : splitNL t with
          | nil => exact absurd ht (splitNL_ne_nil t)
          | cons hd rest =>
            have : hd ∈ splitNL t := by rw [ht]; exact List.mem_cons_self _ _
            have := ih hd this
            rw [ht] at h'
            exact this h'
      · have : l ∈ splitNL t := by
          cases ht : splitNL t with
          | nil => exact absurd ht (splitNL_ne_nil t)
          | cons hd rest =>
            rw [ht] at h
            exact List.mem_cons_of_mem _ (by simpa using h)
        exact ih l this

theorem splitNL_of_no_nl (l : Str) (h : nlc ∉ l) : splitNL l = [l] := by
  induction l with
  | nil => rfl
  | cons c t ih =>
    have hc : c ≠ nlc := fun hc => h (hc ▸ List.mem_cons_self c t)
    have ht : nlc ∉ t := fun hm => h (List.mem_cons_of_mem _ hm)
    simp [splitNL, hc, ih ht]

theorem splitNL_append_nl (l r : Str) (h : nlc ∉ l) :
    splitNL (l ++ nlc :: r) = l :: splitNL r := by
  induction l with
  | nil => simp [splitNL]
  | cons c t ih =>
    have hc : c ≠ nlc := fun hc => h (hc ▸ List.mem_cons_self c t)
    have ht : nlc ∉ t := fun hm => h (List.mem_cons_of_mem _ hm)
    have heq := ih ht
    rw [List.cons_append, show splitNL (c :: (t ++ nlc :: r)) =
      (c :: (splitNL (t ++ nlc :: r)).headI) :: (splitNL (t ++ nlc :: r)).tail by
        simp [splitNL, hc], heq]
    simp

theorem splitNL_joinNL (ls : List Str) (hne : ls ≠ [])
    (h : ∀ l ∈ ls, nlc ∉ l) : splitNL (joinNL ls) = ls := by
  induction ls with
  | nil => exact absurd rfl hne
  | cons l rest ih =>
    cases rest with
    | nil =>
      have := h l (List.mem_cons_self _ _)
      simp [joinNL, splitNL_of_no_nl l this]
    | cons l2 rest2 =>
      rw [joinNL_cons_of_ne_nil _ _ (by simp)]
      rw [splitNL_append_nl _ _ (h l (List.mem_cons_self _ _))]
      rw [ih (by simp) (fun x hx => h x (List.mem_cons_of_mem _ hx))]

end SplitJoin

namespace ContainsFacts

theorem isPrefixOf_eq_true_iff (p l : Str) : p.isPrefixOf l = true ↔ p <+: l :=
  List.isPrefixOf_iff_prefix

theorem containsS_iff (s pat : Str) : containsS s pat = true ↔ pat <:+: s := by
  induction s with
  | nil =>
    simp only [containsS, List.isEmpty_iff]
    constructor
    · intro h; simp [h]
    · intro h
      have := List.eq_nil_of_infix_nil h
      simp [this]
  | cons c t ih =>
    simp only [containsS, Bool.or_eq_true, isPrefixOf_eq_true_iff, ih,
      List.infix_cons_iff]

theorem containsS_eq_false_iff (s pat : Str) :
    containsS s pat = false ↔ ¬ pat <:+: s := by
  rw [← containsS_iff]
  simp

theorem containsS_of_infix {s s' pat : Str} (h : containsS s pat = true)
    (hs : s <:+: s') : containsS s' pat = true := by
  rw [containsS_iff] at h ⊢
  exact h.trans hs

theorem containsS_append_right (a s pat : Str) (h : containsS s pat = true) :
    containsS (a ++ s) pat = true :=
  containsS_of_infix h ⟨a, [], by simp⟩

theorem containsS_append_left (s b pat : Str) (h : containsS s pat = true) :
    containsS (s ++ b) pat = true :=
  containsS_of_infix h ⟨[], b, by simp⟩

/-- A pattern avoiding the character `c` that is a prefix of `a ++ c :: b`
is already a prefix of `a`. -/
theorem pref_avoid (pat : Str) (c : Char) (b : Str) (hc : c ∉ pat) :
    ∀ a : Str, pat <+: a ++ c :: b → pat <+: a := by
  induction pat with
  | nil => intro a _; exact List.nil_prefix
  | cons p ps ih =>
    intro a hpre
    cases a with
    | nil =>
      rcases List.cons_prefix_cons.mp hpre with ⟨hp, _⟩
      exact absurd (hp ▸ List.mem_cons_self p ps) hc
    | cons a0 at' =>
      rcases List.cons_prefix_cons.mp hpre with ⟨hp, hps⟩
      have hcps : c ∉ ps := fun hm => hc (List.mem_cons_of_mem _ hm)
      exact List.cons_prefix_cons.mpr ⟨hp, ih hcps at' hps⟩

/-- An occurrence of a pattern avoiding `c` in `a ++ c :: b` lies inside
`a` or inside `b`; with `c = nlc` this localizes occurrences of newline-free
patterns in joined documents to single lines. -/
theorem infix_append_cons_iff (pat a b : Str) (c : Char) (hc : c ∉ pat) :
    pat <:+: a ++ c :: b ↔ pat <:+: a ∨ pat <:+: b := by
  constructor
  · intro h
    induction a with
    | nil =>
      rcases List.infix_cons_iff.mp h with h' | h'
      · have := pref_avoid pat c b hc [] h'
        have hn : pat = [] := List.prefix_nil.mp this
        exact Or.inr (hn ▸ List.nil_infix)
      · exact Or.inr h'
    | cons a0 at' ih =>
      rcases List.infix_cons_iff.mp h with h' | h'
      · exact Or.inl (pref_avoid pat c b hc (a0 :: at') h').isInfix
      · rcases ih h' with h2 | h2
        · exact Or.inl (h2.trans ⟨[a0], [], by simp⟩)
        · exact Or.inr h2
  · intro h
    rcases h with h | h
    · exact h.trans ⟨[], c :: b, by simp⟩
    · exact h.trans ⟨a ++ [c], [], by simp⟩

theorem containsS_joinNL_iff (ls : List Str) (pat : Str) (hne : ls ≠ [])
    (hnl : nlc ∉ pat) :
    containsS (joinNL ls) pat = true ↔ ∃ l ∈ ls, containsS l pat = true := by
  induction ls with
  | nil => exact absurd rfl hne
  | cons l rest ih =>
    cases rest with
    | nil => simp [joinNL]
    | cons l2 rest2 =>
      rw [SplitJoin.joinNL_cons_of_ne_nil _ _ (by simp)]
      rw [containsS_iff, infix_append_cons_iff _ _ _ _ hnl,
        ← containsS_iff l pat, ← containsS_iff (joinNL (l2 :: rest2)) pat,
        ih (by simp)]
      constructor
      · intro h
        rcases h with h | ⟨x, hx, hpx⟩
        · exact ⟨l, List.mem_cons_self _ _, h⟩
        · exact ⟨x, List.mem_cons_of_mem _ hx, hpx⟩
      · rintro ⟨x, hx, hpx⟩
        rcases List.mem_cons.mp hx with h | h
        · exact Or.inl (h ▸ hpx)
        · exact Or.inr ⟨x, h, hpx⟩

/-- Prepending whitespace cannot create an occurrence of a pattern whose
first character is not whitespace. -/
theorem containsS_ws_prepend (a x pat : Str) (hc : Char) (hws : ∀ c ∈ a, isJsWs c = true)
    (hhead : pat.head? = some hc) (hcws : isJsWs hc = false) :
    containsS (a ++ x) pat = containsS x pat := by
  induction a with
  | nil => simp
  | cons a0 at' ih =>
    have ha0 : isJsWs a0 = true := hws a0 (List.mem_cons_self _ _)
    have hrest : ∀ c ∈ at', isJsWs c = true := fun c h => hws c (List.mem_cons_of_mem _ h)
    rw [List.cons_append]
    rw [show containsS (a0 :: (at' ++ x)) pat =
      (pat.isPrefixOf (a0 :: (at' ++ x)) || containsS (at' ++ x) pat) from rfl]
    rw [ih hrest]
    cases pat with
    | nil => simp at hhead
    | cons p ps =>
      have hp : p = hc := by simpa using hhead
      have : (p :: ps).isPrefixOf (a0 :: (at' ++ x)) = false := by
        rw [Bool.eq_false_iff]
        intro hpre
        rw [isPrefixOf_eq_true_iff] at hpre
        rcases List.cons_prefix_cons.mp hpre with ⟨hpa, _⟩
        rw [hp] at hpa
        rw [hpa] at hcws
        rw [ha0] at hcws
        cases hcws
      rw [this]
      simp

end ContainsFacts

namespace FindIdx

theorem findIdxO_cons_true {p : Str → Bool} {l : Str} (ls : List Str)
    (h : p l = true) : findIdxO p (l :: ls) = some 0 := by
  simp [findIdxO, h]

theorem findIdxO_cons_false {p : Str → Bool} {l : Str} (ls : List Str)
    (h : p l = false) :
    findIdxO p (l :: ls) = (findIdxO p ls).map (· + 1) := by
  simp [findIdxO, h]

theorem findIdxO_lt_length {p : Str → Bool} {ls : List Str} {i : Nat}
    (h : findIdxO p ls = some i) : i < ls.length := by
  induction ls generalizing i with
  | nil => simp [findIdxO] at h
  | cons l t ih =>
    by_cases hp : p l
    · rw [findIdxO_cons_true t hp] at h
      cases h
      simp
    · rw [findIdxO_cons_false t (by simpa using hp)] at h
      cases hi : findIdxO p t with
      | none => rw [hi] at h; simp at h
      | some j =>
        rw [hi] at h
        simp at h
        have := ih hi
        simp [← h]
        omega

theorem findIdxO_getD {p : Str → Bool} {ls : List Str} {i : Nat}
    (h : findIdxO p ls = some i) : p (ls.getD i []) = true := by
  induction ls generalizing i with
  | nil => simp [findIdxO] at h
  | cons l t ih =>
    by_cases hp : p l
    · rw [findIdxO_cons_true t hp] at h
      cases h
      simpa using hp
    · rw [findIdxO_cons_false t (by simpa using hp)] at h
      cases hi : findIdxO p t with
      | none => rw [hi] at h; simp at h
      | some j =>
        rw [hi] at h
        simp at h
        have := ih hi
        rw [← h]
        simpa using this

theorem findIdxO_min {p : Str → Bool} {ls : List Str} {i : Nat}
    (h : findIdxO p ls = some i) :
    ∀ j, j < i → p (ls.getD j []) = false := by
  induction ls generalizing i with
  | nil => simp [findIdxO] at h
  | cons l t ih =>
    by_cases hp : p l
    · rw [findIdxO_cons_true t hp] at h
      cases h
      intro j hj
      omega
    · rw [findIdxO_cons_false t (by simpa using hp)] at h
      cases hi : findIdxO p t with
      | none => rw [hi] at h; simp at h
      | some k =>
        rw [hi] at h
        simp at h
        intro j hj
        cases j with
        | zero => simpa using hp
        | succ j' =>
          have : j' < k := by omega
          simpa using ih hi j' this

theorem findIdxO_eq_none_iff {p : Str → Bool} {ls : List Str} :
    findIdxO p ls = none ↔ ∀ l ∈ ls, p l = false := by
  induction ls with
  | nil => simp [findIdxO]
  | cons l t ih =>
    by_cases hp : p l
    · rw [findIdxO_cons_true t hp]
      simp [hp]
    · rw [findIdxO_cons_false t (by simpa using hp)]
      simp only [Option.map_eq_none', ih]
      constructor
      · intro h x hx
        rcases List.mem_cons.mp hx with h' | h'
        · simpa [h'] using hp
        · exact h x h'
      · intro h x hx
        exact h x (List.mem_cons_of_mem _ hx)

theorem findIdxO_append_left {p : Str → Bool} {a : List Str} {i : Nat}
    (b : List Str) (h : findIdxO p a = some i) :
    findIdxO p (a ++ b) = some i := by
  induction a generalizing i with
  | nil => simp [findIdxO] at h
  | cons l t ih =>
    by_cases hp : p l
    · rw [findIdxO_cons_true t hp] at h
      cases h
      exact findIdxO_cons_true _ hp
    · rw [findIdxO_cons_false t (by simpa using hp)] at h
      cases hi : findIdxO p t with
      | none => rw [hi] at h; simp at h
      | some j =>
        rw [hi] at h
        simp at h
        rw [List.cons_append, findIdxO_cons_false _ (by simpa using hp), ih hi]
        simp [h]

theorem findIdxO_append_right {p : Str → Bool} {a : List Str}
    (b : List Str) (h : ∀ l ∈ a, p l = false) :
    findIdxO p (a ++ b) = (findIdxO p b).map (· + a.length) := by
  induction a with
  | nil => simp
  | cons l t ih =>
    have hl : p l = false := h l (List.mem_cons_self _ _)
    have ht : ∀ x ∈ t, p x = false := fun x hx => h x (List.mem_cons_of_mem _ hx)
    rw [List.cons_append, findIdxO_cons_false _ hl, ih ht]
    cases findIdxO p b with
    | none => simp
    | some j => simp; omega

theorem forall_take_false {p : Str → Bool} {L : List Str} {n : Nat}
    (h : ∀ j, j < n → p (L.getD j []) = false) :
    ∀ l ∈ L.take n, p l = false := by
  induction L generalizing n with
  | nil => simp
  | cons x t ih =>
    cases n with
    | zero => simp
    | succ m =>
      intro l hl
      rcases List.mem_cons.mp (by simpa using hl) with h' | h'
      · rw [h']
        simpa using h 0 (by omega)
      · exact ih (fun j hj => by simpa using h (j + 1) (by omega)) l h'

end FindIdx

/-! The markers searched for by `setupKeychainsAndroid`. -/

/-- The substring `"<queries"` (keychains_android.js:109,130). -/
def qOpenM : Str := strL "<queries"

/-- The substring `"</queries>"` (keychains_android.js:133). -/
def qCloseM : Str := strL "</queries>"

/-- The substring `"<application"` (keychains_android.js:208). -/
def appM : Str := strL "<application"

/-- One attempted match of the regex `/<queries\s*\/>|<queries\s*><\/queries>/`
(keychains_android.js:113,117) at the head of `cs`; on success it returns the
text following the matched characters. After the literal `<queries` and the
greedy `\s*` run, the alternatives demand the distinct characters `/` and `>`,
so the alternation is deterministic and no backtracking is possible. -/
def matchEmptyQ (cs : Str) : Option Str :=
  if qOpenM.isPrefixOf cs then
    let rest := (cs.drop 8).dropWhile isJsWs
    if (strL "/>").isPrefixOf rest then some (rest.drop 2)
    else if (strL "></queries>").isPrefixOf rest then some (rest.drop 11)
    else none
  else none

/-- The JS `/<queries\s*\/>|<queries\s*><\/queries>/.test(content)`
(keychains_android.js:113): a regex match exists somewhere in the content. -/
def hasEmptyQ : Str → Bool
  | [] => false
  | c :: cs => (matchEmptyQ (c :: cs)).isSome || hasEmptyQ cs

/-- The replacement text `"<queries>\n</queries>"` (keychains_android.js:118). -/
def emptyQRepl : Str := strL "<queries>\n</queries>"

/-- The JS `content.replace(/<queries\s*\/>|<queries\s*><\/queries>/, ...)`
(keychains_android.js:116-119): only the leftmost match is replaced, since
the regex carries no global flag. -/
def replaceEmptyQ : Str → Str
  | [] => []
  | c :: cs =>
    match matchEmptyQ (c :: cs) with
    | some rest => emptyQRepl ++ rest
    | none => c :: replaceEmptyQ cs

/-- Lines 112-120 of keychains_android.js: normalize a self-closing or
single-line-empty queries tag before line processing. -/
def normalizeQ (content : Str) : Str :=
  if hasEmptyQ content then replaceEmptyQ content else content

/-- The managed-entry matcher
`lines[i].includes("<package") && lines[i].includes("android:name")`
(keychains_android.js:171-174). -/
def isPkgLine (l : Str) : Bool :=
  containsS l (strL "<package") && containsS l (strL "android:name")

/-- The indentation-free part of a rendered entry,
`` `<package android:name="${pkg}" />` `` (keychains_android.js:162,238). -/
def pkgEntryBare (p : Str) : Str :=
  strL "<package android:name=\"" ++ p ++ strL "\" />"

/-- The rendered entry `` `${packageIndent}<package android:name="${pkg}" />` ``
(keychains_android.js:162,238). -/
def pkgEntryLine (ind : Str) (p : Str) : Str :=
  ind ++ pkgEntryBare p

/-- The rebuild loop over an existing queries section
(keychains_android.js:150-183): `o` and `c` are `queriesOpenLine` and
`queriesCloseLine`, `i` the loop counter, `inSec` the `inQueriesSection`
flag, and `pkgLines` the rendered entries pushed after the opening tag. -/
def goPresent (o c : Nat) (pkgLines : List Str) : List Str → Nat → Bool → List Str
  | [], _, _ => []
  | l :: rest, i, inSec =>
    if i = o then l :: (pkgLines ++ goPresent o c pkgLines rest (i + 1) true)
    else if i = c then l :: goPresent o c pkgLines rest (i + 1) false
    else if inSec then
      if isPkgLine l then goPresent o c pkgLines rest (i + 1) inSec
      else l :: goPresent o c pkgLines rest (i + 1) inSec
    else l :: goPresent o c pkgLines rest (i + 1) inSec

/-- The block of lines a missing queries section is created from
(keychains_android.js:233-243): opening tag, one entry per package at one
extra indentation level, closing tag, and the blank separator line. -/
def queriesBlock (ind : Str) (pkgs : List Str) : List Str :=
  (ind ++ strL "<queries>") ::
    (pkgs.map (pkgEntryLine (ind ++ strL "  ")) ++ [ind ++ strL "</queries>", []])

/-- The rebuild loop of the no-section case (keychains_android.js:230-248):
the block is inserted right before line `a`, the first `<application` line. -/
def goCreate (a : Nat) (block : List Str) : List Str → Nat → List Str
  | [], _ => []
  | l :: rest, i =>
    if i = a then block ++ l :: goCreate a block rest (i + 1)
    else l :: goCreate a block rest (i + 1)

/-- The pure document transformation `setupKeychainsAndroid` performs between
reading and writing the manifest (keychains_android.js:109-253). `none`
models the error returns at lines 188-194 (close marker missing) and 214-220
(no `<application` anchor), after which nothing is written. -/
def setupQueriesTransform (content : Str) (pkgs : List Str) : Option Str :=
  if containsS content qOpenM then
    match findIdxO (fun l => containsS l qOpenM) (splitNL (normalizeQ content)),
          findIdxO (fun l => containsS l qCloseM) (splitNL (normalizeQ content)) with
    | some o, some c =>
      some (joinNL (goPresent o c
        (pkgs.map (pkgEntryLine
          (leadingWs ((splitNL (normalizeQ content)).getD o []) ++ strL "  ")))
        (splitNL (normalizeQ content)) 0 false))
    | _, _ => none
  else
    match findIdxO (fun l => containsS l appM) (splitNL content) with
    | some a =>
      some (joinNL (goCreate a
        (queriesBlock (leadingWs ((splitNL content).getD a [])) pkgs)
        (splitNL content) 0))
    | none => none

/-- The `(queriesOpenLine, queriesCloseLine)` pair selected at
keychains_android.js:126-136, observed after the normalization of lines
112-120; `none` when the content has no `<queries` substring or one of the
two markers matches no line. -/
def selectedAnchors (content : Str) : Option (Nat × Nat) :=
  if containsS content qOpenM then
    match findIdxO (fun l => containsS l qOpenM) (splitNL (normalizeQ content)),
          findIdxO (fun l => containsS l qCloseM) (splitNL (normalizeQ content)) with
    | some o, some c => some (o, c)
    | _, _ => none
  else none

/-- Manifest filesystem actions performed by `setupKeychainsAndroid`. -/
inductive ManifestAction where
  | readManifest : ManifestAction
  | writeManifest : Str → ManifestAction
deriving DecidableEq

/-- The inputs `setupKeychainsAndroid` draws from its options and the
filesystem: `optPackages` is `options.packages`, `configKeychains` is the
array `extractJsonArray(configFile, "keychains")` yields (empty when the
config file is missing, unparsable, or has no array under the key), and
`manifestContent` the manifest text on disk. -/
structure AndroidEnv where
  optPackages : List Str
  configFileExists : Bool
  configKeychains : List Str
  manifestExists : Bool
  manifestContent : Str

/-- Package-list resolution (keychains_android.js:65-81): config packages are
consulted only when the options supplied none, and adopted only when
non-empty. -/
def resolvedPackages (e : AndroidEnv) : List Str :=
  if e.optPackages.isEmpty && e.configFileExists && !e.configKeychains.isEmpty
  then e.configKeychains else e.optPackages

/-- The `setupKeychainsAndroid` control flow (keychains_android.js:52-277):
its boolean result together with the manifest reads and writes it performs,
in order. The empty-package and missing-manifest guards (lines 84-103) fire
before the manifest is ever read (line 106); the write (line 256) happens
only after a successful transformation. -/
def setupKeychainsAndroidRun (e : AndroidEnv) : Bool × List ManifestAction :=
  if (resolvedPackages e).isEmpty then (false, [])
  else if !e.manifestExists then (false, [])
  else
    match setupQueriesTransform e.manifestContent (resolvedPackages e) with
    | some out => (true, [ManifestAction.readManifest, ManifestAction.writeManifest out])
    | none => (false, [ManifestAction.readManifest])

/-! The iOS entitlements editor `updateEntitlementsFile` (part_001:153-232). -/

/-- The key marker `"<key>keychain-access-groups</key>"` (part_001:159,172). -/
def keyMarkerM : Str := strL "<key>keychain-access-groups</key>"

/-- The substring `"</array>"` (part_001:182). -/
def arrCloseM : Str := strL "</array>"

/-- The substring `"</dict>"` (part_001:205). -/
def dictCloseM : Str := strL "</dict>"

/-- The rendered entry `` `\t\t<string>$(AppIdentifierPrefix)${v}</string>` ``
(part_001:176,180,209,213). -/
def entStringLine (v : Str) : Str :=
  strL "\t\t<string>$(AppIdentifierPrefix)" ++ v ++ strL "</string>"

/-- The `<array>` opener plus the bundle-id entry and the keychain entries,
pushed in this order by both branches (part_001:175-181, 208-214). -/
def entArrayBlock (bundleId : Str) (ks : List Str) : List Str :=
  strL "\t<array>" :: entStringLine bundleId :: ks.map entStringLine

/-- The update loop of `updateEntitlementsFile` (part_001:169-189); `inSec`
is `inKeychainSection`. Lines inside the section that do not contain
`</array>` are skipped. -/
def goEntUpdate (bundleId : Str) (ks : List Str) : List Str → Bool → List Str
  | [], _ => []
  | l :: rest, inSec =>
    if containsS l keyMarkerM then
      l :: (entArrayBlock bundleId ks ++ goEntUpdate bundleId ks rest true)
    else if inSec && containsS l arrCloseM then l :: goEntUpdate bundleId ks rest false
    else if inSec then goEntUpdate bundleId ks rest inSec
    else l :: goEntUpdate bundleId ks rest inSec

/-- The block inserted before each `</dict>` line by the create branch
(part_001:205-217). -/
def entCreateBlock (bundleId : Str) (ks : List Str) : List Str :=
  strL "\t<key>keychain-access-groups</key>" ::
    (entArrayBlock bundleId ks ++ [strL "\t</array>"])

/-- The create loop of `updateEntitlementsFile` (part_001:200-221). -/
def goEntCreate (bundleId : Str) (ks : List Str) : List Str → List Str
  | [] => []
  | l :: rest =>
    if containsS l dictCloseM then
      entCreateBlock bundleId ks ++ l :: goEntCreate bundleId ks rest
    else l :: goEntCreate bundleId ks rest

/-- The line rebuild performed by `updateEntitlementsFile` (part_001:153-232):
the update loop when the key marker occurs in the content, the create loop
otherwise. -/
def updateEntLines (content : Str) (bundleId : Str) (ks : List Str) : List Str :=
  if containsS content keyMarkerM then goEntUpdate bundleId ks (splitNL content) false
  else goEntCreate bundleId ks (splitNL content)

/-- The full text written back by `updateEntitlementsFile`
(part_001:191,223). -/
def updateEntitlementsTransform (content : Str) (bundleId : Str) (ks : List Str) : Str :=
  joinNL (updateEntLines content bundleId ks)

namespace AndroidLemmas

/-- Once the loop counter has passed both anchor lines with the section flag
off, every remaining line is copied verbatim. -/
theorem goPresent_tail (o c : Nat) (P : List Str) (ls : List Str) (i : Nat)
    (ho : o < i) (hc : c < i) : goPresent o c P ls i false = ls := by
  induction ls generalizing i with
  | nil => rfl
  | cons l rest ih =>
    have h1 : i ≠ o := by omega
    have h2 : i ≠ c := by omega
    simp only [goPresent, h1, h2, if_false]
    rw [ih (i + 1) (by omega) (by omega)]
    simp

/-- Between the open and close anchors the loop drops managed entry lines and
keeps everything else, switching off at the close anchor. -/
theorem goPresent_in (o c : Nat) (P : List Str) (ls : List Str) (i : Nat)
    (ho : o < i) (hic : i ≤ c) :
    goPresent o c P ls i true =
      (ls.take (c - i)).filter (fun l => !isPkgLine l) ++ ls.drop (c - i) := by
  induction ls generalizing i with
  | nil => simp [goPresent]
  | cons l rest ih =>
    have h1 : i ≠ o := by omega
    by_cases h2 : i = c
    · subst h2
      simp only [goPresent, h1, if_false, if_true]
      rw [goPresent_tail o i P rest (i + 1) (by omega) (by omega)]
      simp
    · have hlt : i < c := by omega
      simp only [goPresent, h1, h2, if_false, if_true]
      rw [show c - i = (c - (i + 1)) + 1 by omega, List.take_succ_cons,
        List.drop_succ_cons, List.filter_cons]
      by_cases hp : isPkgLine l
      · simp only [hp, if_true]
        rw [ih (i + 1) (by omega) (by omega)]
        simp
      · have hp' : isPkgLine l = false := by simpa using hp
        simp only [hp', if_false]
        rw [ih (i + 1) (by omega) (by omega)]
        simp

/-- Closed form of the present-section rebuild loop when the open anchor
precedes the close anchor. -/
theorem goPresent_master (o c : Nat) (P : List Str) (ls : List Str) (i : Nat)
    (hio : i ≤ o) (hoc : o < c) (hlen : o - i < ls.length) :
    goPresent o c P ls i false =
      ls.take (o - i + 1) ++ P ++
        ((ls.drop (o - i + 1)).take (c - o - 1)).filter (fun l => !isPkgLine l) ++
        ls.drop (c - i) := by
  induction ls generalizing i with
  | nil => simp at hlen
  | cons l rest ih =>
    by_cases h1 : i = o
    · subst h1
      simp only [goPresent, if_pos rfl]
      rw [goPresent_in i c P rest (i + 1) (by omega) (by omega)]
      rw [show i - i + 1 = 1 by omega, show c - i = (c - (i + 1)) + 1 by omega]
      simp only [List.take_succ_cons, List.take_zero, List.drop_succ_cons,
        List.drop_zero]
      rw [show c - (i + 1) = c - i - 1 by omega]
      simp
    · have h2 : i ≠ c := by omega
      have hlt : i < o := by omega
      simp only [goPresent, h1, h2, if_false]
      rw [ih (i + 1) (by omega) (by simp at hlen; omega)]
      rw [show o - i + 1 = (o - (i + 1) + 1) + 1 by omega, List.take_succ_cons,
        List.drop_succ_cons, show c - i = (c - (i + 1)) + 1 by omega,
        List.drop_succ_cons]
      simp [show o - (i + 1) + 1 = o - i by omega]

theorem goPresent_closed (o c : Nat) (P : List Str) (ls : List Str)
    (hoc : o < c) (hlen : o < ls.length) :
    goPresent o c P ls 0 false =
      ls.take (o + 1) ++ P ++
        ((ls.drop (o + 1)).take (c - o - 1)).filter (fun l => !isPkgLine l) ++
        ls.drop c := by
  rw [goPresent_master o c P ls 0 (by omega) hoc (by omega)]
  simp

/-- Past the insertion anchor the creation loop copies lines verbatim. -/
theorem goCreate_skip (a : Nat) (B : List Str) (ls : List Str) (i : Nat)
    (h : a < i) : goCreate a B ls i = ls := by
  induction ls generalizing i with
  | nil => rfl
  | cons l rest ih =>
    have h1 : i ≠ a := by omega
    simp only [goCreate, h1, if_false]
    rw [ih (i + 1) (by omega)]

/-- Closed form of the creation loop: the block lands right before line `a`. -/
theorem goCreate_master (a : Nat) (B : List Str) (ls : List Str) (i : Nat)
    (hia : i ≤ a) (hlen : a - i < ls.length) :
    goCreate a B ls i = ls.take (a - i) ++ B ++ ls.drop (a - i) := by
  induction ls generalizing i with
  | nil => simp at hlen
  | cons l rest ih =>
    by_cases h1 : i = a
    · subst h1
      simp only [goCreate, if_pos rfl]
      rw [goCreate_skip i B rest (i + 1) (by omega)]
      simp
    · have hlt : i < a := by omega
      simp only [goCreate, h1, if_false]
      rw [ih (i + 1) (by omega) (by simp at hlen; omega)]
      rw [show a - i = (a - (i + 1)) + 1 by omega, List.take_succ_cons,
        List.drop_succ_cons]
      simp

theorem goCreate_closed (a : Nat) (B : List Str) (ls : List Str)
    (hlen : a < ls.length) :
    goCreate a B ls 0 = ls.take a ++ B ++ ls.drop a := by
  rw [goCreate_master a B ls 0 (by omega) (by omega)]
  simp

/-- Inversion of `selectedAnchors`. -/
theorem selectedAnchors_inv {content : Str} {o c : Nat}
    (h : selectedAnchors content = some (o, c)) :
    containsS content qOpenM = true ∧
    findIdxO (fun l => containsS l qOpenM) (splitNL (normalizeQ content)) = some o ∧
    findIdxO (fun l => containsS l qCloseM) (splitNL (normalizeQ content)) = some c := by
  unfold selectedAnchors at h
  by_cases h1 : containsS content qOpenM = true
  · rw [if_pos h1] at h
    refine ⟨h1, ?_⟩
    cases ho : findIdxO (fun l => containsS l qOpenM) (splitNL (normalizeQ content)) with
    | none => rw [ho] at h; simp at h
    | some o' =>
      cases hc : findIdxO (fun l => containsS l qCloseM) (splitNL (normalizeQ content)) with
      | none => rw [ho, hc] at h; simp at h
      | some c' =>
        rw [ho, hc] at h
        simp only [Option.some_inj, Prod.mk.injEq] at h
        obtain ⟨he1, he2⟩ := h
        subst he1
        subst he2
        exact ⟨rfl, rfl⟩
  · rw [if_neg h1] at h
    simp at h

/-- The present branch of the transformation, phrased through the selected
anchor pair. -/
theorem transform_present (content : Str) (pkgs : List Str) {o c : Nat}
    (h : selectedAnchors content = some (o, c)) :
    setupQueriesTransform content pkgs =
      some (joinNL (goPresent o c
        (pkgs.map (pkgEntryLine
          (leadingWs ((splitNL (normalizeQ content)).getD o []) ++ strL "  ")))
        (splitNL (normalizeQ content)) 0 false)) := by
  obtain ⟨h1, ho, hc⟩ := selectedAnchors_inv h
  unfold setupQueriesTransform
  rw [if_pos h1]
  simp only [ho, hc]

/-- The creation branch of the transformation. -/
theorem transform_create (content : Str) (pkgs : List Str) {a : Nat}
    (hq : containsS content qOpenM = false)
    (ha : findIdxO (fun l => containsS l appM) (splitNL content) = some a) :
    setupQueriesTransform content pkgs =
      some (joinNL ((splitNL content).take a ++
        queriesBlock (leadingWs ((splitNL content).getD a [])) pkgs ++
        (splitNL content).drop a)) := by
  unfold setupQueriesTransform
  rw [if_neg (by simp [hq])]
  simp only [ha]
  rw [goCreate_closed a _ _ (FindIdx.findIdxO_lt_length ha)]

/-- The failure of the creation branch when no `<application` anchor exists. -/
theorem transform_create_fail (content : Str) (pkgs : List Str)
    (hq : containsS content qOpenM = false)
    (ha : findIdxO (fun l => containsS l appM) (splitNL content) = none) :
    setupQueriesTransform content pkgs = none := by
  unfold setupQueriesTransform
  rw [if_neg (by simp [hq])]
  simp only [ha]

end AndroidLemmas

/-- C4: for every document containing no `<queries` open marker and no
`<application` insertion anchor, `setupKeychainsAndroid` returns false and
never writes the manifest, so the file content is exactly what it was before
the call (the only manifest action performed is the read). -/
theorem claimC4_no_anchor_fails_without_write (e : AndroidEnv)
    (hpk : (resolvedPackages e).isEmpty = false)
    (hex : e.manifestExists = true)
    (hq : containsS e.manifestContent qOpenM = false)
    (happ : findIdxO (fun l => containsS l appM) (splitNL e.manifestContent) = none) :
    setupKeychainsAndroidRun e = (false, [ManifestAction.readManifest]) ∧
    ∀ s, ManifestAction.writeManifest s ∉ (setupKeychainsAndroidRun e).2 := by
  have htr : setupQueriesTransform e.manifestContent (resolvedPackages e) = none :=
    AndroidLemmas.transform_create_fail _ _ hq happ
  have hmain : setupKeychainsAndroidRun e = (false, [ManifestAction.readManifest]) := by
    unfold setupKeychainsAndroidRun
    rw [hpk, hex]
    simp only [Bool.not_true, Bool.false_eq_true, if_false, htr]
  refine ⟨hmain, ?_⟩
  rw [hmain]
  intro s hs
  simp at hs

/-- Witness for C4 at a concrete manifest with neither marker. -/
theorem claimC4_witness :
    setupKeychainsAndroidRun
      ⟨[strL "com.a"], false, [], true, strL "<manifest>\n</manifest>"⟩ =
      (false, [ManifestAction.readManifest]) :=
  (claimC4_no_anchor_fails_without_write _ (by decide) (by decide) (by decide)
    (by decide)).1

/-- C5: for every document with no queries section and a first `<application`
anchor at line `a`, reconciliation succeeds and produces the document whose
lines are: the lines before the anchor, then an opening tag carrying the
anchor line's own indentation, one entry per desired package (in the order
supplied) at one extra indentation level, the closing tag at the anchor's
indentation, a blank separator line, and then the anchor line and all lines
after it, unchanged. -/
theorem claimC5_creation_path (content : Str) (pkgs : List Str) {a : Nat}
    (hq : containsS content qOpenM = false)
    (ha : findIdxO (fun l => containsS l appM) (splitNL content) = some a) :
    setupQueriesTransform content pkgs =
      some (joinNL ((splitNL content).take a ++
        ((leadingWs ((splitNL content).getD a []) ++ strL "<queries>") ::
          (pkgs.map (pkgEntryLine
            (leadingWs ((splitNL content).getD a []) ++ strL "  ")) ++
           [leadingWs ((splitNL content).getD a []) ++ strL "</queries>", []])) ++
        (splitNL content).drop a)) := by
  rw [AndroidLemmas.transform_create content pkgs hq ha]
  rfl

/-- Witness for C5 at a concrete two-package manifest. -/
theorem claimC5_witness :
    setupQueriesTransform (strL "<manifest>\n  <application x>\n</manifest>")
      [strL "com.a.app", strL "com.b.app"] =
      some (strL "<manifest>\n  <queries>\n    <package android:name=\"com.a.app\" />\n    <package android:name=\"com.b.app\" />\n  </queries>\n\n  <application x>\n</manifest>") := by
  have := claimC5_creation_path
    (strL "<manifest>\n  <application x>\n</manifest>")
    [strL "com.a.app", strL "com.b.app"]
    (a := 1) (by decide) (by decide)
  rw [this]
  decide

/-- C8: for every document whose queries section is present with the open
anchor before the close anchor, the reconciled document consists of the lines
up to and including the open-marker line, then the desired entries in the
order supplied, then the retained interior lines (those not matching the
entry matcher), then the close-marker line and everything after it: the
entries appear immediately after the open-marker line and before any retained
interior content. -/
theorem claimC8_entries_follow_open (content : Str) (pkgs : List Str) {o c : Nat}
    (h : selectedAnchors content = some (o, c)) (hoc : o < c) :
    setupQueriesTransform content pkgs =
      some (joinNL ((splitNL (normalizeQ content)).take (o + 1) ++
        pkgs.map (pkgEntryLine
          (leadingWs ((splitNL (normalizeQ content)).getD o []) ++ strL "  ")) ++
        (((splitNL (normalizeQ content)).drop (o + 1)).take (c - o - 1)).filter
          (fun l => !isPkgLine l) ++
        (splitNL (normalizeQ content)).drop c)) := by
  rw [AndroidLemmas.transform_present content pkgs h]
  obtain ⟨h1, ho, hc⟩ := AndroidLemmas.selectedAnchors_inv h
  rw [AndroidLemmas.goPresent_closed o c _ _ hoc (FindIdx.findIdxO_lt_length ho)]

/-- Witness for C8 at a concrete populated section with one foreign line. -/
theorem claimC8_witness :
    setupQueriesTransform
      (strL "<m>\n  <queries>\n    <package android:name=\"old\" />\n    <!--keep-->\n  </queries>\n</m>")
      [strL "com.a"] =
      some (strL "<m>\n  <queries>\n    <package android:name=\"com.a\" />\n    <!--keep-->\n  </queries>\n</m>") := by
  have := claimC8_entries_follow_open
    (strL "<m>\n  <queries>\n    <package android:name=\"old\" />\n    <!--keep-->\n  </queries>\n</m>")
    [strL "com.a"] (o := 1) (c := 4) (by decide) (by decide)
  rw [this]
  decide

/-- C9: whenever the resolved package list is empty — no packages supplied in
the options and none under the config file's `keychains` key —
`setupKeychainsAndroid` returns false and performs no manifest action at all:
the manifest file is neither read nor written. -/
theorem claimC9_empty_packages_no_manifest_io (e : AndroidEnv)
    (h1 : e.optPackages = []) (h2 : e.configKeychains = []) :
    setupKeychainsAndroidRun e = (false, []) := by
  have hres : resolvedPackages e = [] := by
    unfold resolvedPackages
    rw [h1, h2]
    simp
  unfold setupKeychainsAndroidRun
  rw [hres]
  simp

/-- Witness for C9 at a concrete environment with an existing manifest. -/
theorem claimC9_witness :
    setupKeychainsAndroidRun ⟨[], true, [], true, strL "<manifest>\n</manifest>"⟩ =
      (false, []) :=
  claimC9_empty_packages_no_manifest_io _ rfl rfl

/-- C7 counterexample: in the document `"</queries>\n<queries>\n</queries>"`
the first open-marker line is line 1 and the first close-marker line after it
is line 2, yet the code selects the pair `(1, 0)`: `queriesCloseLine` is the
first line containing `</queries>` anywhere in the document, which here
precedes the open-marker line, contradicting the claim that the close anchor
is the first close marker occurring after the open-marker line. -/
theorem claimC7_counterexample :
    selectedAnchors (strL "</queries>\n<queries>\n</queries>") = some (1, 0) ∧
    containsS ((splitNL (strL "</queries>\n<queries>\n</queries>")).getD 2 [])
      qCloseM = true ∧
    ¬ (1 < 0) := by
  refine ⟨by decide, by decide, by omega⟩

/-- C7 (amended): whenever the code selects an anchor pair, the open anchor
is the first line containing `<queries` and the close anchor is the first
line containing `</queries>` anywhere in the (normalized) document — not
necessarily after the open-marker line; the two notions coincide exactly
when no close-marker line precedes the open-marker line. -/
theorem claimC7_first_anchors_amended (content : Str) {o c : Nat}
    (h : selectedAnchors content = some (o, c)) :
    (containsS ((splitNL (normalizeQ content)).getD o []) qOpenM = true ∧
      ∀ j, j < o → containsS ((splitNL (normalizeQ content)).getD j []) qOpenM = false) ∧
    (containsS ((splitNL (normalizeQ content)).getD c []) qCloseM = true ∧
      ∀ j, j < c → containsS ((splitNL (normalizeQ content)).getD j []) qCloseM = false) := by
  obtain ⟨h1, ho, hc⟩ := AndroidLemmas.selectedAnchors_inv h
  exact ⟨⟨FindIdx.findIdxO_getD ho, fun j hj => FindIdx.findIdxO_min ho j hj⟩,
    ⟨FindIdx.findIdxO_getD hc, fun j hj => FindIdx.findIdxO_min hc j hj⟩⟩

/-- Witness for the amended C7 at a concrete well-formed section. -/
theorem claimC7_witness :
    containsS ((splitNL (normalizeQ (strL "<m>\n<queries>\nx\n</queries>\n</m>"))).getD 1 [])
      qOpenM = true ∧
    ∀ j, j < 3 → containsS
      ((splitNL (normalizeQ (strL "<m>\n<queries>\nx\n</queries>\n</m>"))).getD j [])
      qCloseM = false :=
  ⟨(claimC7_first_anchors_amended (strL "<m>\n<queries>\nx\n</queries>\n</m>")
      (o := 1) (c := 3) (by decide)).1.1,
   (claimC7_first_anchors_amended (strL "<m>\n<queries>\nx\n</queries>\n</m>")
      (o := 1) (c := 3) (by decide)).2.2⟩

namespace EntLemmas

/-- A newline-free pattern occurring in a document occurs in one of its lines. -/
theorem exists_line_of_containsS (content pat : Str) (hnl : nlc ∉ pat)
    (h : containsS content pat = true) :
    ∃ l ∈ splitNL content, containsS l pat = true := by
  have hj := SplitJoin.joinNL_splitNL content
  rw [← hj] at h
  exact (ContainsFacts.containsS_joinNL_iff (splitNL content) pat
    (SplitJoin.splitNL_ne_nil content) hnl).mp h

/-- Whenever some line carries the key marker, the update loop's output
contains the freshly pushed array block as a contiguous run of lines. -/
theorem entBlock_infix_update (b : Str) (ks : List Str) (L : List Str) (s : Bool)
    (hL : ∃ l ∈ L, containsS l keyMarkerM = true) :
    entArrayBlock b ks <:+: goEntUpdate b ks L s := by
  induction L generalizing s with
  | nil => simp at hL
  | cons l rest ih =>
    by_cases hk : containsS l keyMarkerM = true
    · rw [show goEntUpdate b ks (l :: rest) s =
        l :: (entArrayBlock b ks ++ goEntUpdate b ks rest true) by
          simp [goEntUpdate, hk]]
      exact ⟨[l], goEntUpdate b ks rest true, by simp⟩
    · have hk' : containsS l keyMarkerM = false := by simpa using hk
      have hex : ∃ x ∈ rest, containsS x keyMarkerM = true := by
        rcases hL with ⟨x, hx, hpx⟩
        rcases List.mem_cons.mp hx with h | h
        · exact absurd (h ▸ hpx) hk
        · exact ⟨x, h, hpx⟩
      cases s with
      | true =>
        by_cases hcl : containsS l arrCloseM = true
        · rw [show goEntUpdate b ks (l :: rest) true =
            l :: goEntUpdate b ks rest false by simp [goEntUpdate, hk', hcl]]
          exact (ih false hex).trans (List.suffix_cons l _).isInfix
        · have hcl' : containsS l arrCloseM = false := by simpa using hcl
          rw [show goEntUpdate b ks (l :: rest) true =
            goEntUpdate b ks rest true by simp [goEntUpdate, hk', hcl']]
          exact ih true hex
      | false =>
        rw [show goEntUpdate b ks (l :: rest) false =
          l :: goEntUpdate b ks rest false by simp [goEntUpdate, hk']]
        exact (ih false hex).trans (List.suffix_cons l _).isInfix

/-- Whenever some line carries `</dict>`, the create loop's output contains
the pushed array block as a contiguous run of lines. -/
theorem entBlock_infix_create (b : Str) (ks : List Str) (L : List Str)
    (hL : ∃ l ∈ L, containsS l dictCloseM = true) :
    entArrayBlock b ks <:+: goEntCreate b ks L := by
  induction L with
  | nil => simp at hL
  | cons l rest ih =>
    by_cases hd : containsS l dictCloseM = true
    · rw [show goEntCreate b ks (l :: rest) =
        entCreateBlock b ks ++ l :: goEntCreate b ks rest by simp [goEntCreate, hd]]
      exact ⟨[strL "\t<key>keychain-access-groups</key>"],
        strL "\t</array>" :: l :: goEntCreate b ks rest, by simp [entCreateBlock]⟩
    · have hd' : containsS l dictCloseM = false := by simpa using hd
      have hex : ∃ x ∈ rest, containsS x dictCloseM = true := by
        rcases hL with ⟨x, hx, hpx⟩
        rcases List.mem_cons.mp hx with h | h
        · exact absurd (h ▸ hpx) hd
        · exact ⟨x, h, hpx⟩
      rw [show goEntCreate b ks (l :: rest) = l :: goEntCreate b ks rest by
        simp [goEntCreate, hd']]
      exact (ih hex).trans (List.suffix_cons l _).isInfix

end EntLemmas

/-- C10: in both branches of `updateEntitlementsFile` — updating an existing
keychain-access-groups section or creating one before `</dict>` — the output
lines contain, as a contiguous run, the array opener followed first by the
`$(AppIdentifierPrefix)`-prefixed bundle-id string entry and then by the
supplied keychain entries in their given order. -/
theorem claimC10_bundle_id_entry_first (content b : Str) (ks : List Str)
    (h : containsS content keyMarkerM = true ∨
      ∃ l ∈ splitNL content, containsS l dictCloseM = true) :
    (strL "\t<array>" ::
      (strL "\t\t<string>$(AppIdentifierPrefix)" ++ b ++ strL "</string>") ::
      ks.map entStringLine) <:+: updateEntLines content b ks := by
  by_cases hk : containsS content keyMarkerM = true
  · rw [show updateEntLines content b ks = goEntUpdate b ks (splitNL content) false by
      simp [updateEntLines, hk]]
    exact EntLemmas.entBlock_infix_update b ks _ false
      (EntLemmas.exists_line_of_containsS content keyMarkerM (by decide) hk)
  · have hk' : containsS content keyMarkerM = false := by simpa using hk
    have hd : ∃ l ∈ splitNL content, containsS l dictCloseM = true := by
      rcases h with h | h
      · exact absurd h hk
      · exact h
    rw [show updateEntLines content b ks = goEntCreate b ks (splitNL content) by
      simp [updateEntLines, hk']]
    exact EntLemmas.entBlock_infix_create b ks _ hd

/-- Witness for C10 at a concrete plist without an existing section. -/
theorem claimC10_witness :
    (strL "\t<array>" ::
      (strL "\t\t<string>$(AppIdentifierPrefix)" ++ strL "com.bid" ++ strL "</string>") ::
      [strL "com.k1"].map entStringLine) <:+:
      updateEntLines (strL "<dict>\n</dict>") (strL "com.bid") [strL "com.k1"] :=
  claimC10_bundle_id_entry_first _ _ _
    (Or.inr ⟨strL "</dict>", by decide, by decide⟩)

namespace ListFacts

theorem drop_eq_getD_cons {L : List Str} {n : Nat} (h : n < L.length) :
    L.drop n = L.getD n [] :: L.drop (n + 1) := by
  induction L generalizing n with
  | nil => simp at h
  | cons x t ih =>
    cases n with
    | zero => simp
    | succ m =>
      simp only [List.drop_succ_cons, List.getD_cons_succ]
      exact ih (by simpa using h)

theorem take_succ_eq {L : List Str} {n : Nat} (h : n < L.length) :
    L.take (n + 1) = L.take n ++ [L.getD n []] := by
  induction L generalizing n with
  | nil => simp at h
  | cons x t ih =>
    cases n with
    | zero => simp
    | succ m =>
      simp only [List.take_succ_cons, List.getD_cons_succ]
      rw [ih (by simpa using h)]
      simp

end ListFacts

namespace EntLemmas

/-- Outside any keychain section the update loop copies key-free lines. -/
theorem goEntUpdate_no_key_append (b : Str) (ks : List Str) (A X : List Str)
    (hA : ∀ l ∈ A, containsS l keyMarkerM = false) :
    goEntUpdate b ks (A ++ X) false = A ++ goEntUpdate b ks X false := by
  induction A with
  | nil => simp
  | cons l t ih =>
    have hl : containsS l keyMarkerM = false := hA l (List.mem_cons_self _ _)
    have ht : ∀ x ∈ t, containsS x keyMarkerM = false :=
      fun x hx => hA x (List.mem_cons_of_mem _ hx)
    rw [List.cons_append,
      show goEntUpdate b ks (l :: (t ++ X)) false =
        l :: goEntUpdate b ks (t ++ X) false by simp [goEntUpdate, hl],
      ih ht, List.cons_append]

theorem goEntUpdate_no_key_id (b : Str) (ks : List Str) (B : List Str)
    (hB : ∀ l ∈ B, containsS l keyMarkerM = false) :
    goEntUpdate b ks B false = B := by
  have := goEntUpdate_no_key_append b ks B [] hB
  simpa [goEntUpdate] using this

/-- Inside a keychain section the update loop drops every line carrying
neither the key marker nor `</array>`. -/
theorem goEntUpdate_drop_interior (b : Str) (ks : List Str) (M X : List Str)
    (hM : ∀ l ∈ M, containsS l keyMarkerM = false ∧ containsS l arrCloseM = false) :
    goEntUpdate b ks (M ++ X) true = goEntUpdate b ks X true := by
  induction M with
  | nil => simp
  | cons l t ih =>
    have hl := hM l (List.mem_cons_self _ _)
    have ht : ∀ x ∈ t, containsS x keyMarkerM = false ∧ containsS x arrCloseM = false :=
      fun x hx => hM x (List.mem_cons_of_mem _ hx)
    rw [List.cons_append,
      show goEntUpdate b ks (l :: (t ++ X)) true = goEntUpdate b ks (t ++ X) true by
        simp [goEntUpdate, hl.1, hl.2],
      ih ht]

/-- Closed form of the update loop on a document with a single well-formed
keychain section: the prior section body `M` is dropped wholesale and the
fresh array block is pushed after the key line. -/
theorem goEntUpdate_structure (b : Str) (ks : List Str)
    (A : List Str) (kl : Str) (M : List Str) (cl : Str) (B : List Str)
    (hA : ∀ l ∈ A, containsS l keyMarkerM = false)
    (hkl : containsS kl keyMarkerM = true)
    (hM : ∀ l ∈ M, containsS l keyMarkerM = false ∧ containsS l arrCloseM = false)
    (hcl1 : containsS cl keyMarkerM = false)
    (hcl2 : containsS cl arrCloseM = true)
    (hB : ∀ l ∈ B, containsS l keyMarkerM = false) :
    goEntUpdate b ks (A ++ (kl :: (M ++ (cl :: B)))) false =
      A ++ (kl :: (entArrayBlock b ks ++ (cl :: B))) := by
  rw [goEntUpdate_no_key_append b ks A (kl :: (M ++ (cl :: B))) hA]
  congr 1
  rw [show goEntUpdate b ks (kl :: (M ++ (cl :: B))) false =
    kl :: (entArrayBlock b ks ++ goEntUpdate b ks (M ++ (cl :: B)) true) by
      simp [goEntUpdate, hkl]]
  rw [goEntUpdate_drop_interior b ks M (cl :: B) hM]
  rw [show goEntUpdate b ks (cl :: B) true = cl :: goEntUpdate b ks B false by
    simp [goEntUpdate, hcl1, hcl2]]
  rw [goEntUpdate_no_key_id b ks B hB]

/-- The create loop copies anchor-free lines. -/
theorem goEntCreate_push_append (b : Str) (ks : List Str) (A X : List Str)
    (hA : ∀ l ∈ A, containsS l dictCloseM = false) :
    goEntCreate b ks (A ++ X) = A ++ goEntCreate b ks X := by
  induction A with
  | nil => simp
  | cons l t ih =>
    have hl : containsS l dictCloseM = false := hA l (List.mem_cons_self _ _)
    have ht : ∀ x ∈ t, containsS x dictCloseM = false :=
      fun x hx => hA x (List.mem_cons_of_mem _ hx)
    rw [List.cons_append,
      show goEntCreate b ks (l :: (t ++ X)) = l :: goEntCreate b ks (t ++ X) by
        simp [goEntCreate, hl],
      ih ht, List.cons_append]

theorem goEntCreate_no_anchor_id (b : Str) (ks : List Str) (B : List Str)
    (hB : ∀ l ∈ B, containsS l dictCloseM = false) :
    goEntCreate b ks B = B := by
  have := goEntCreate_push_append b ks B [] hB
  simpa [goEntCreate] using this

/-- Closed form of the create loop on a document with a single `</dict>`
anchor line. -/
theorem goEntCreate_structure (b : Str) (ks : List Str)
    (A : List Str) (dl : Str) (B : List Str)
    (hA : ∀ l ∈ A, containsS l dictCloseM = false)
    (hdl : containsS dl dictCloseM = true)
    (hB : ∀ l ∈ B, containsS l dictCloseM = false) :
    goEntCreate b ks (A ++ dl :: B) = A ++ entCreateBlock b ks ++ dl :: B := by
  rw [goEntCreate_push_append b ks A (dl :: B) hA]
  rw [show goEntCreate b ks (dl :: B) = entCreateBlock b ks ++ dl :: goEntCreate b ks B by
    simp [goEntCreate, hdl]]
  rw [goEntCreate_no_anchor_id b ks B hB]
  simp

/-- A line of the document carrying a newline-free pattern makes the whole
content carry it. -/
theorem containsS_of_line (content pat l : Str) (hnl : nlc ∉ pat)
    (hl : l ∈ splitNL content) (h : containsS l pat = true) :
    containsS content pat = true := by
  rw [← SplitJoin.joinNL_splitNL content]
  exact (ContainsFacts.containsS_joinNL_iff (splitNL content) pat
    (SplitJoin.splitNL_ne_nil content) hnl).mpr ⟨l, hl, h⟩

/-- A pattern absent from every line is absent from the whole content. -/
theorem containsS_eq_false_of_lines (content pat : Str) (hnl : nlc ∉ pat)
    (h : ∀ l ∈ splitNL content, containsS l pat = false) :
    containsS content pat = false := by
  by_contra hx
  have hx' : containsS content pat = true := by
    cases hc : containsS content pat
    · exact absurd hc hx
    · rfl
  rw [← SplitJoin.joinNL_splitNL content] at hx'
  rcases (ContainsFacts.containsS_joinNL_iff (splitNL content) pat
    (SplitJoin.splitNL_ne_nil content) hnl).mp hx' with ⟨l, hl, hpl⟩
  rw [h l hl] at hpl
  cases hpl

end EntLemmas

/-- C2: lines outside the target section are unchanged, in content and
relative order, after reconciliation, on all four reconciliation paths.
For the Android editor: with anchors `o < c`, the output is the lines before
the open anchor, a middle, and the lines after the close anchor, unchanged;
in the creation case, the lines before and from the anchor on are unchanged
around the inserted block. For the iOS editor: on a document with a single
well-formed keychain section the lines before the key line and after the
closing `</array>` line survive verbatim; in the creation case every line
around the single `</dict>` anchor survives verbatim. -/
theorem claimC2_outside_lines_preserved :
    (∀ content pkgs o c, selectedAnchors content = some (o, c) → o < c →
      ∃ mid, setupQueriesTransform content pkgs =
        some (joinNL ((splitNL (normalizeQ content)).take o ++ mid ++
          (splitNL (normalizeQ content)).drop (c + 1)))) ∧
    (∀ content pkgs a, containsS content qOpenM = false →
      findIdxO (fun l => containsS l appM) (splitNL content) = some a →
      ∃ mid, setupQueriesTransform content pkgs =
        some (joinNL ((splitNL content).take a ++ mid ++ (splitNL content).drop a))) ∧
    (∀ content b ks A kl M cl B,
      splitNL content = A ++ (kl :: (M ++ (cl :: B))) →
      (∀ l ∈ A, containsS l keyMarkerM = false) →
      containsS kl keyMarkerM = true →
      (∀ l ∈ M, containsS l keyMarkerM = false ∧ containsS l arrCloseM = false) →
      containsS cl keyMarkerM = false → containsS cl arrCloseM = true →
      (∀ l ∈ B, containsS l keyMarkerM = false) →
      updateEntLines content b ks = A ++ (kl :: (entArrayBlock b ks ++ (cl :: B)))) ∧
    (∀ content b ks A dl B,
      splitNL content = A ++ (dl :: B) →
      (∀ l ∈ splitNL content, containsS l keyMarkerM = false) →
      (∀ l ∈ A, containsS l dictCloseM = false) →
      containsS dl dictCloseM = true →
      (∀ l ∈ B, containsS l dictCloseM = false) →
      updateEntLines content b ks = A ++ entCreateBlock b ks ++ dl :: B) := by
  refine ⟨?_, ?_, ?_, ?_⟩
  · intro content pkgs o c h hoc
    obtain ⟨h1, ho, hc⟩ := AndroidLemmas.selectedAnchors_inv h
    have hol := FindIdx.findIdxO_lt_length ho
    have hcl := FindIdx.findIdxO_lt_length hc
    refine ⟨(splitNL (normalizeQ content)).getD o [] ::
      (pkgs.map (pkgEntryLine
        (leadingWs ((splitNL (normalizeQ content)).getD o []) ++ strL "  ")) ++
      ((((splitNL (normalizeQ content)).drop (o + 1)).take (c - o - 1)).filter
        (fun l => !isPkgLine l) ++
      [(splitNL (normalizeQ content)).getD c []])), ?_⟩
    rw [AndroidLemmas.transform_present content pkgs h]
    rw [AndroidLemmas.goPresent_closed o c _ _ hoc hol]
    rw [ListFacts.take_succ_eq hol, ListFacts.drop_eq_getD_cons hcl]
    simp
  · intro content pkgs a hq ha
    exact ⟨queriesBlock (leadingWs ((splitNL content).getD a [])) pkgs,
      AndroidLemmas.transform_create content pkgs hq ha⟩
  · intro content b ks A kl M cl B hsplit hA hkl hM hcl1 hcl2 hB
    have hkmem : kl ∈ splitNL content := by
      rw [hsplit]
      exact List.mem_append_right _ (List.mem_cons_self _ _)
    have hkey : containsS content keyMarkerM = true :=
      EntLemmas.containsS_of_line content keyMarkerM kl (by decide) hkmem hkl
    rw [show updateEntLines content b ks =
      goEntUpdate b ks (splitNL content) false by simp [updateEntLines, hkey]]
    rw [hsplit]
    exact EntLemmas.goEntUpdate_structure b ks A kl M cl B hA hkl hM hcl1 hcl2 hB
  · intro content b ks A dl B hsplit hnokey hA hdl hB
    have hkey : containsS content keyMarkerM = false :=
      EntLemmas.containsS_eq_false_of_lines content keyMarkerM (by decide) hnokey
    rw [show updateEntLines content b ks =
      goEntCreate b ks (splitNL content) by simp [updateEntLines, hkey]]
    rw [hsplit]
    have := EntLemmas.goEntCreate_structure b ks A dl B hA hdl hB
    rw [this]

/-- Witness for C2 (iOS update conjunct) at a concrete single-section plist. -/
theorem claimC2_witness :
    updateEntLines
      (strL "<dict>\n<key>keychain-access-groups</key>\n<array>\n</array>\n</dict>")
      (strL "b") [] =
      [strL "<dict>"] ++ (strL "<key>keychain-access-groups</key>" ::
        (entArrayBlock (strL "b") [] ++ (strL "</array>" :: [strL "</dict>"]))) :=
  claimC2_outside_lines_preserved.2.2.1
    (strL "<dict>\n<key>keychain-access-groups</key>\n<array>\n</array>\n</dict>")
    (strL "b") [] [strL "<dict>"] (strL "<key>keychain-access-groups</key>")
    [strL "<array>"] (strL "</array>") [strL "</dict>"]
    (by decide) (by decide) (by decide) (by decide) (by decide) (by decide) (by decide)

/-- C3 counterexample: in the iOS entitlements editor a foreign interior line
(here an XML comment inside the keychain-access-groups array) does not
survive reconciliation — the update loop drops every line between the key
line and the closing `</array>` line, whether or not it is an entry — so the
claim that non-entry interior lines survive in both editors is false. -/
theorem claimC3_counterexample :
    containsS
      (strL "<dict>\n<key>keychain-access-groups</key>\n<array>\n<!--foreign-->\n</array>\n</dict>")
      (strL "<!--foreign-->") = true ∧
    containsS
      (updateEntitlementsTransform
        (strL "<dict>\n<key>keychain-access-groups</key>\n<array>\n<!--foreign-->\n</array>\n</dict>")
        (strL "b") [strL "k"])
      (strL "<!--foreign-->") = false := by
  refine ⟨by decide, by decide⟩

/-- C3 (amended): in the Android queries editor, interior lines between the
selected anchors that do not match the entry-line matcher survive
reconciliation unmodified and in their original relative order (as a
contiguous run of the output); in the iOS entitlements editor, by contrast,
no interior line of the keychain section survives: on a single well-formed
section the output's line count is that of the prior-section-free document
plus the freshly generated block, independent of the prior interior. -/
theorem claimC3_foreign_preservation_amended :
    (∀ content pkgs o c, selectedAnchors content = some (o, c) → o < c →
      ∃ pre suf, setupQueriesTransform content pkgs =
        some (joinNL (pre ++
          ((((splitNL (normalizeQ content)).drop (o + 1)).take (c - o - 1)).filter
            (fun l => !isPkgLine l)) ++ suf))) ∧
    (∀ content b ks A kl M cl B,
      splitNL content = A ++ (kl :: (M ++ (cl :: B))) →
      (∀ l ∈ A, containsS l keyMarkerM = false) →
      containsS kl keyMarkerM = true →
      (∀ l ∈ M, containsS l keyMarkerM = false ∧ containsS l arrCloseM = false) →
      containsS cl keyMarkerM = false → containsS cl arrCloseM = true →
      (∀ l ∈ B, containsS l keyMarkerM = false) →
      (updateEntLines content b ks).length =
        A.length + B.length + ks.length + 4) := by
  constructor
  · intro content pkgs o c h hoc
    obtain ⟨h1, ho, hc⟩ := AndroidLemmas.selectedAnchors_inv h
    refine ⟨(splitNL (normalizeQ content)).take (o + 1) ++
      pkgs.map (pkgEntryLine
        (leadingWs ((splitNL (normalizeQ content)).getD o []) ++ strL "  ")),
      (splitNL (normalizeQ content)).drop c, ?_⟩
    rw [AndroidLemmas.transform_present content pkgs h]
    rw [AndroidLemmas.goPresent_closed o c _ _ hoc (FindIdx.findIdxO_lt_length ho)]
  · intro content b ks A kl M cl B hsplit hA hkl hM hcl1 hcl2 hB
    have hkmem : kl ∈ splitNL content := by
      rw [hsplit]
      exact List.mem_append_right _ (List.mem_cons_self _ _)
    have hkey : containsS content keyMarkerM = true :=
      EntLemmas.containsS_of_line content keyMarkerM kl (by decide) hkmem hkl
    rw [show updateEntLines content b ks =
      goEntUpdate b ks (splitNL content) false by simp [updateEntLines, hkey]]
    rw [hsplit]
    rw [EntLemmas.goEntUpdate_structure b ks A kl M cl B hA hkl hM hcl1 hcl2 hB]
    simp only [List.length_append, List.length_cons, entArrayBlock,
      List.length_map]
    omega

/-- Witness for the amended C3 (Android conjunct) at a section holding one
foreign line. -/
theorem claimC3_witness :
    ∃ pre suf, setupQueriesTransform
      (strL "<m>\n<queries>\n<package android:name=\"old\" />\n<!--keep-->\n</queries>\n</m>")
      [strL "com.a"] =
      some (joinNL (pre ++
        ((((splitNL (normalizeQ
          (strL "<m>\n<queries>\n<package android:name=\"old\" />\n<!--keep-->\n</queries>\n</m>"))).drop
            (1 + 1)).take (4 - 1 - 1)).filter (fun l => !isPkgLine l)) ++ suf)) :=
  claimC3_foreign_preservation_amended.1
    (strL "<m>\n<queries>\n<package android:name=\"old\" />\n<!--keep-->\n</queries>\n</m>")
    [strL "com.a"] 1 4 (by decide) (by decide)

namespace NormFacts

theorem isPrefixOf_append_self (p r : Str) : p.isPrefixOf (p ++ r) = true :=
  (ContainsFacts.isPrefixOf_eq_true_iff p (p ++ r)).mpr (List.prefix_append p r)

theorem isPrefixOf_cons_ne (a b : Char) (p l : Str) (h : a ≠ b) :
    List.isPrefixOf (a :: p) (b :: l) = false := by
  rw [Bool.eq_false_iff]
  intro hx
  rw [ContainsFacts.isPrefixOf_eq_true_iff] at hx
  rcases List.cons_prefix_cons.mp hx with ⟨h1, _⟩
  exact h h1

/-- A match of the empty-queries regex at the head of a self-closing form. -/
theorem matchEmptyQ_selfclosing (suf : Str) :
    matchEmptyQ (strL "<queries/>" ++ suf) = some suf := by
  show matchEmptyQ
    ('<' :: 'q' :: 'u' :: 'e' :: 'r' :: 'i' :: 'e' :: 's' :: '/' :: '>' :: suf) =
    some suf
  simp [matchEmptyQ, qOpenM, strL, List.isPrefixOf, isJsWs]

/-- A match of the empty-queries regex at the head of the single-line empty
form. -/
theorem matchEmptyQ_singleline (suf : Str) :
    matchEmptyQ (strL "<queries></queries>" ++ suf) = some suf := by
  show matchEmptyQ
    ('<' :: 'q' :: 'u' :: 'e' :: 'r' :: 'i' :: 'e' :: 's' :: '>' :: '<' :: '/' ::
      'q' :: 'u' :: 'e' :: 'r' :: 'i' :: 'e' :: 's' :: '>' :: suf) = some suf
  simp [matchEmptyQ, qOpenM, strL, List.isPrefixOf, isJsWs]

theorem hasEmptyQ_head (x : Str) (h : (matchEmptyQ x).isSome = true) :
    hasEmptyQ x = true := by
  cases x with
  | nil =>
    have : matchEmptyQ ([] : Str) = none := by decide
    rw [this] at h
    simp at h
  | cons c t => simp [hasEmptyQ, h]

theorem hasEmptyQ_append_right (a x : Str) (h : hasEmptyQ x = true) :
    hasEmptyQ (a ++ x) = true := by
  induction a with
  | nil => simpa using h
  | cons c y ih => simp [hasEmptyQ, ih]

theorem replaceEmptyQ_head_match (x rest : Str) (h : matchEmptyQ x = some rest) :
    replaceEmptyQ x = emptyQRepl ++ rest := by
  cases x with
  | nil =>
    have : matchEmptyQ ([] : Str) = none := by decide
    rw [this] at h
    cases h
  | cons c t =>
    unfold replaceEmptyQ
    rw [h]

/-- First-match replacement walks over a queries-free prefix untouched when
what follows starts with `<`. -/
theorem replaceEmptyQ_append (pre X : Str)
    (hpre : containsS pre qOpenM = false)
    (hX : X.head? = some '<') :
    replaceEmptyQ (pre ++ X) = pre ++ replaceEmptyQ X := by
  induction pre with
  | nil => simp
  | cons c y ih =>
    have hy : containsS y qOpenM = false := by
      have := hpre
      simp only [containsS, Bool.or_eq_false_iff] at this
      exact this.2
    have hnp : qOpenM.isPrefixOf ((c :: y) ++ X) = false := by
      rw [Bool.eq_false_iff]
      intro hp
      rw [ContainsFacts.isPrefixOf_eq_true_iff] at hp
      by_cases hlen : 8 ≤ (c :: y).length
      · have hpre8 : qOpenM <+: c :: y := by
          refine List.prefix_of_prefix_length_le hp (List.prefix_append _ _) ?_
          have h8 : qOpenM.length = 8 := by decide
          rw [h8]
          exact hlen
        have : containsS (c :: y) qOpenM = true :=
          (ContainsFacts.containsS_iff _ _).mpr hpre8.isInfix
        rw [this] at hpre
        cases hpre
      · push_neg at hlen
        have hcy : (c :: y) <+: qOpenM := by
          refine List.prefix_of_prefix_length_le (List.prefix_append (c :: y) X) hp ?_
          have h8 : qOpenM.length = 8 := by decide
          rw [h8]
          omega
        rcases hcy with ⟨d, hd⟩
        have hdne : d ≠ [] := by
          intro hdn
          rw [hdn, List.append_nil] at hd
          have h8 : qOpenM.length = 8 := by decide
          rw [← hd] at h8
          simp at h8
          simp at hlen
          omega
        rcases hp with ⟨t, ht⟩
        rw [← hd, List.append_assoc] at ht
        have hX2 : d ++ t = X := List.append_cancel_left ht
        have hdh : d.head? = some '<' := by
          cases d with
          | nil => exact absurd rfl hdne
          | cons d0 d' =>
            rw [← hX2] at hX
            simpa using hX
        have hk : (c :: y).length ≥ 1 := by simp
        have : ∀ k : Nat, 1 ≤ k → k < 8 → (qOpenM.drop k).head? ≠ some '<' := by decide
        have hdrop : qOpenM.drop (c :: y).length = d := by
          rw [← hd, List.drop_left]
        rw [← hdrop] at hdh
        exact this (c :: y).length hk (by omega) hdh
    rw [List.cons_append,
      show replaceEmptyQ (c :: (y ++ X)) =
        match matchEmptyQ (c :: (y ++ X)) with
        | some rest => emptyQRepl ++ rest
        | none => c :: replaceEmptyQ (y ++ X) from rfl]
    rw [show matchEmptyQ (c :: (y ++ X)) = none by
      unfold matchEmptyQ
      rw [show (c :: (y ++ X) : Str) = (c :: y) ++ X by simp, hnp]
      simp]
    rw [ih hy]
    simp

end NormFacts

/-- C6: two documents identical except that one carries the queries section
in self-closing (`<queries/>`) or single-line-empty (`<queries></queries>`)
form and the other carries the explicit empty open/close pair on separate
lines produce the same output when reconciled with the same desired entries.
The shared prefix must not contain another `<queries` occurrence and the
explicit-form document must contain no further empty-form match, so that the
section being normalized is the section being reconciled. -/
theorem claimC6_selfclosing_normalization (pre suf : Str) (pkgs : List Str)
    (form : Str)
    (hpre : containsS pre qOpenM = false)
    (hform : form = strL "<queries/>" ∨ form = strL "<queries></queries>")
    (hno : hasEmptyQ (pre ++ (strL "<queries>\n</queries>" ++ suf)) = false) :
    setupQueriesTransform (pre ++ (form ++ suf)) pkgs =
      setupQueriesTransform (pre ++ (strL "<queries>\n</queries>" ++ suf)) pkgs := by
  have hmatch : matchEmptyQ (form ++ suf) = some suf := by
    rcases hform with h | h
    · rw [h]
      exact NormFacts.matchEmptyQ_selfclosing suf
    · rw [h]
      exact NormFacts.matchEmptyQ_singleline suf
  have hhead : (form ++ suf).head? = some '<' := by
    rcases hform with h | h <;> rw [h] <;> rfl
  have hrepl : replaceEmptyQ (pre ++ (form ++ suf)) =
      pre ++ (strL "<queries>\n</queries>" ++ suf) := by
    rw [NormFacts.replaceEmptyQ_append pre (form ++ suf) hpre hhead]
    rw [NormFacts.replaceEmptyQ_head_match (form ++ suf) suf hmatch]
    rfl
  have hhas : hasEmptyQ (pre ++ (form ++ suf)) = true :=
    NormFacts.hasEmptyQ_append_right pre _
      (NormFacts.hasEmptyQ_head _ (by simp [hmatch]))
  have hq1 : containsS (pre ++ (form ++ suf)) qOpenM = true := by
    apply ContainsFacts.containsS_append_right
    apply ContainsFacts.containsS_append_left
    rcases hform with h | h <;> rw [h] <;> decide
  have hq2 : containsS (pre ++ (strL "<queries>\n</queries>" ++ suf)) qOpenM = true := by
    apply ContainsFacts.containsS_append_right
    apply ContainsFacts.containsS_append_left
    decide
  have hn1 : normalizeQ (pre ++ (form ++ suf)) =
      pre ++ (strL "<queries>\n</queries>" ++ suf) := by
    unfold normalizeQ
    rw [hhas, hrepl]
    simp
  have hn2 : normalizeQ (pre ++ (strL "<queries>\n</queries>" ++ suf)) =
      pre ++ (strL "<queries>\n</queries>" ++ suf) := by
    unfold normalizeQ
    rw [hno]
    simp
  unfold setupQueriesTransform
  rw [hq1, hq2, hn1, hn2]
  simp

/-- Witness for C6: the spec's own scenario, a self-closing tag before an
`<application` line, against its explicit-empty counterpart. -/
theorem claimC6_witness :
    setupQueriesTransform
      (strL "<m>\n  " ++ (strL "<queries/>" ++ strL "\n  <application x>\n</m>"))
      [strL "p"] =
      setupQueriesTransform
        (strL "<m>\n  " ++ (strL "<queries>\n</queries>" ++ strL "\n  <application x>\n</m>"))
        [strL "p"] :=
  claimC6_selfclosing_normalization (strL "<m>\n  ")
    (strL "\n  <application x>\n</m>") [strL "p"] (strL "<queries/>")
    (by decide) (Or.inl rfl) (by decide)

/-- An entry value whose rendered `<string>` line carries no newline and no
marker the update loop matches on; the idempotence of the entitlements editor
holds for such values. -/
@[reducible]
def cleanEntValue (v : Str) : Prop :=
  nlc ∉ v ∧ containsS (entStringLine v) keyMarkerM = false ∧
  containsS (entStringLine v) arrCloseM = false

namespace IdemEnt

theorem entArrayBlock_inert (b : Str) (ks : List Str) (hb : cleanEntValue b)
    (hks : ∀ k ∈ ks, cleanEntValue k) :
    ∀ l ∈ entArrayBlock b ks,
      containsS l keyMarkerM = false ∧ containsS l arrCloseM = false := by
  intro l hl
  rcases List.mem_cons.mp hl with h | h
  · rw [h]
    exact ⟨by decide, by decide⟩
  rcases List.mem_cons.mp h with h2 | h2
  · rw [h2]
    exact ⟨hb.2.1, hb.2.2⟩
  · rcases List.mem_map.mp h2 with ⟨k, hk, hkl⟩
    rw [← hkl]
    exact ⟨(hks k hk).2.1, (hks k hk).2.2⟩

/-- The update loop is idempotent on line lists whenever the pushed block is
inert for its own matchers. -/
theorem goEntUpdate_idem (b : Str) (ks : List Str)
    (hblock : ∀ l ∈ entArrayBlock b ks,
      containsS l keyMarkerM = false ∧ containsS l arrCloseM = false) :
    ∀ (L : List Str) (s : Bool),
      goEntUpdate b ks (goEntUpdate b ks L s) s = goEntUpdate b ks L s := by
  intro L
  induction L with
  | nil => intro s; rfl
  | cons l rest ih =>
    intro s
    by_cases hk : containsS l keyMarkerM = true
    · rw [show goEntUpdate b ks (l :: rest) s =
        l :: (entArrayBlock b ks ++ goEntUpdate b ks rest true) by
          simp [goEntUpdate, hk]]
      rw [show goEntUpdate b ks
          (l :: (entArrayBlock b ks ++ goEntUpdate b ks rest true)) s =
        l :: (entArrayBlock b ks ++
          goEntUpdate b ks (entArrayBlock b ks ++ goEntUpdate b ks rest true) true) by
          simp [goEntUpdate, hk]]
      rw [EntLemmas.goEntUpdate_drop_interior b ks _ _ hblock]
      rw [ih true]
    · have hk' : containsS l keyMarkerM = false := by simpa using hk
      cases s with
      | false =>
        rw [show goEntUpdate b ks (l :: rest) false =
          l :: goEntUpdate b ks rest false by simp [goEntUpdate, hk']]
        rw [show goEntUpdate b ks (l :: goEntUpdate b ks rest false) false =
          l :: goEntUpdate b ks (goEntUpdate b ks rest false) false by
            simp [goEntUpdate, hk']]
        rw [ih false]
      | true =>
        by_cases hcl : containsS l arrCloseM = true
        · rw [show goEntUpdate b ks (l :: rest) true =
            l :: goEntUpdate b ks rest false by simp [goEntUpdate, hk', hcl]]
          rw [show goEntUpdate b ks (l :: goEntUpdate b ks rest false) true =
            l :: goEntUpdate b ks (goEntUpdate b ks rest false) false by
              simp [goEntUpdate, hk', hcl]]
          rw [ih false]
        · have hcl' : containsS l arrCloseM = false := by simpa using hcl
          rw [show goEntUpdate b ks (l :: rest) true =
            goEntUpdate b ks rest true by simp [goEntUpdate, hk', hcl']]
          exact ih true

/-- Updating right after creating reproduces the created document. -/
theorem goEntCreate_then_update (b : Str) (ks : List Str)
    (hblock : ∀ l ∈ entArrayBlock b ks,
      containsS l keyMarkerM = false ∧ containsS l arrCloseM = false)
    (B : List Str) (hB : ∀ l ∈ B, containsS l keyMarkerM = false) :
    goEntUpdate b ks (goEntCreate b ks B) false = goEntCreate b ks B := by
  induction B with
  | nil => rfl
  | cons l rest ih =>
    have hlk : containsS l keyMarkerM = false := hB l (List.mem_cons_self _ _)
    have hrest : ∀ x ∈ rest, containsS x keyMarkerM = false :=
      fun x hx => hB x (List.mem_cons_of_mem _ hx)
    by_cases hd : containsS l dictCloseM = true
    · rw [show goEntCreate b ks (l :: rest) =
        strL "\t<key>keychain-access-groups</key>" ::
          (entArrayBlock b ks ++
            (strL "\t</array>" :: (l :: goEntCreate b ks rest))) by
        simp [goEntCreate, hd, entCreateBlock]]
      rw [show goEntUpdate b ks
          (strL "\t<key>keychain-access-groups</key>" ::
            (entArrayBlock b ks ++
              (strL "\t</array>" :: (l :: goEntCreate b ks rest)))) false =
        strL "\t<key>keychain-access-groups</key>" ::
          (entArrayBlock b ks ++
            goEntUpdate b ks
              (entArrayBlock b ks ++
                (strL "\t</array>" :: (l :: goEntCreate b ks rest))) true) by
        simp [goEntUpdate, show containsS (strL "\t<key>keychain-access-groups</key>")
          keyMarkerM = true by decide]]
      rw [EntLemmas.goEntUpdate_drop_interior b ks _ _ hblock]
      rw [show goEntUpdate b ks
          (strL "\t</array>" :: (l :: goEntCreate b ks rest)) true =
        strL "\t</array>" :: goEntUpdate b ks (l :: goEntCreate b ks rest) false by
        simp [goEntUpdate,
          show containsS (strL "\t</array>") keyMarkerM = false by decide,
          show containsS (strL "\t</array>") arrCloseM = true by decide]]
      rw [show goEntUpdate b ks (l :: goEntCreate b ks rest) false =
        l :: goEntUpdate b ks (goEntCreate b ks rest) false by
          simp [goEntUpdate, hlk]]
      rw [ih hrest]
    · have hd' : containsS l dictCloseM = false := by simpa using hd
      rw [show goEntCreate b ks (l :: rest) = l :: goEntCreate b ks rest by
        simp [goEntCreate, hd']]
      rw [show goEntUpdate b ks (l :: goEntCreate b ks rest) false =
        l :: goEntUpdate b ks (goEntCreate b ks rest) false by
          simp [goEntUpdate, hlk]]
      rw [ih hrest]

theorem mem_goEntUpdate (b : Str) (ks : List Str) (L : List Str) (s : Bool)
    (l : Str) (h : l ∈ goEntUpdate b ks L s) : l ∈ L ∨ l ∈ entArrayBlock b ks := by
  induction L generalizing s with
  | nil => simp [goEntUpdate] at h
  | cons x rest ih =>
    by_cases hk : containsS x keyMarkerM = true
    · rw [show goEntUpdate b ks (x :: rest) s =
        x :: (entArrayBlock b ks ++ goEntUpdate b ks rest true) by
          simp [goEntUpdate, hk]] at h
      rcases List.mem_cons.mp h with h' | h'
      · exact Or.inl (h' ▸ List.mem_cons_self _ _)
      rcases List.mem_append.mp h' with h2 | h2
      · exact Or.inr h2
      · rcases ih true h2 with h3 | h3
        · exact Or.inl (List.mem_cons_of_mem _ h3)
        · exact Or.inr h3
    · have hk' : containsS x keyMarkerM = false := by simpa using hk
      cases s with
      | false =>
        rw [show goEntUpdate b ks (x :: rest) false =
          x :: goEntUpdate b ks rest false by simp [goEntUpdate, hk']] at h
        rcases List.mem_cons.mp h with h' | h'
        · exact Or.inl (h' ▸ List.mem_cons_self _ _)
        · rcases ih false h' with h3 | h3
          · exact Or.inl (List.mem_cons_of_mem _ h3)
          · exact Or.inr h3
      | true =>
        by_cases hcl : containsS x arrCloseM = true
        · rw [show goEntUpdate b ks (x :: rest) true =
            x :: goEntUpdate b ks rest false by simp [goEntUpdate, hk', hcl]] at h
          rcases List.mem_cons.mp h with h' | h'
          · exact Or.inl (h' ▸ List.mem_cons_self _ _)
          · rcases ih false h' with h3 | h3
            · exact Or.inl (List.mem_cons_of_mem _ h3)
            · exact Or.inr h3
        · have hcl' : containsS x arrCloseM = false := by simpa using hcl
          rw [show goEntUpdate b ks (x :: rest) true =
            goEntUpdate b ks rest true by simp [goEntUpdate, hk', hcl']] at h
          rcases ih true h with h3 | h3
          · exact Or.inl (List.mem_cons_of_mem _ h3)
          · exact Or.inr h3

theorem mem_goEntCreate (b : Str) (ks : List Str) (L : List Str)
    (l : Str) (h : l ∈ goEntCreate b ks L) : l ∈ L ∨ l ∈ entCreateBlock b ks := by
  induction L with
  | nil => simp [goEntCreate] at h
  | cons x rest ih =>
    by_cases hd : containsS x dictCloseM = true
    · rw [show goEntCreate b ks (x :: rest) =
        entCreateBlock b ks ++ (x :: goEntCreate b ks rest) by
          simp [goEntCreate, hd]] at h
      rcases List.mem_append.mp h with h' | h'
      · exact Or.inr h'
      rcases List.mem_cons.mp h' with h2 | h2
      · exact Or.inl (h2 ▸ List.mem_cons_self _ _)
      · rcases ih h2 with h3 | h3
        · exact Or.inl (List.mem_cons_of_mem _ h3)
        · exact Or.inr h3
    · have hd' : containsS x dictCloseM = false := by simpa using hd
      rw [show goEntCreate b ks (x :: rest) = x :: goEntCreate b ks rest by
        simp [goEntCreate, hd']] at h
      rcases List.mem_cons.mp h with h' | h'
      · exact Or.inl (h' ▸ List.mem_cons_self _ _)
      · rcases ih h' with h3 | h3
        · exact Or.inl (List.mem_cons_of_mem _ h3)
        · exact Or.inr h3

theorem key_survives_update (b : Str) (ks : List Str) (L : List Str) (s : Bool)
    (h : ∃ l ∈ L, containsS l keyMarkerM = true) :
    ∃ l ∈ goEntUpdate b ks L s, containsS l keyMarkerM = true := by
  induction L generalizing s with
  | nil => simp at h
  | cons x rest ih =>
    by_cases hk : containsS x keyMarkerM = true
    · refine ⟨x, ?_, hk⟩
      rw [show goEntUpdate b ks (x :: rest) s =
        x :: (entArrayBlock b ks ++ goEntUpdate b ks rest true) by
          simp [goEntUpdate, hk]]
      exact List.mem_cons_self _ _
    · have hk' : containsS x keyMarkerM = false := by simpa using hk
      have hex : ∃ l ∈ rest, containsS l keyMarkerM = true := by
        rcases h with ⟨l, hl, hpl⟩
        rcases List.mem_cons.mp hl with h' | h'
        · exact absurd (h' ▸ hpl) hk
        · exact ⟨l, h', hpl⟩
      cases s with
      | false =>
        rcases ih false hex with ⟨l, hl, hpl⟩
        refine ⟨l, ?_, hpl⟩
        rw [show goEntUpdate b ks (x :: rest) false =
          x :: goEntUpdate b ks rest false by simp [goEntUpdate, hk']]
        exact List.mem_cons_of_mem _ hl
      | true =>
        by_cases hcl : containsS x arrCloseM = true
        · rcases ih false hex with ⟨l, hl, hpl⟩
          refine ⟨l, ?_, hpl⟩
          rw [show goEntUpdate b ks (x :: rest) true =
            x :: goEntUpdate b ks rest false by simp [goEntUpdate, hk', hcl]]
          exact List.mem_cons_of_mem _ hl
        · have hcl' : containsS x arrCloseM = false := by simpa using hcl
          rcases ih true hex with ⟨l, hl, hpl⟩
          refine ⟨l, ?_, hpl⟩
          rw [show goEntUpdate b ks (x :: rest) true =
            goEntUpdate b ks rest true by simp [goEntUpdate, hk', hcl']]
          exact hl

theorem key_in_create (b : Str) (ks : List Str) (L : List Str)
    (h : ∃ l ∈ L, containsS l dictCloseM = true) :
    ∃ l ∈ goEntCreate b ks L, containsS l keyMarkerM = true := by
  induction L with
  | nil => simp at h
  | cons x rest ih =>
    by_cases hd : containsS x dictCloseM = true
    · refine ⟨strL "\t<key>keychain-access-groups</key>", ?_, by decide⟩
      rw [show goEntCreate b ks (x :: rest) =
        entCreateBlock b ks ++ (x :: goEntCreate b ks rest) by
          simp [goEntCreate, hd]]
      exact List.mem_append_left _ (List.mem_cons_self _ _)
    · have hd' : containsS x dictCloseM = false := by simpa using hd
      have hex : ∃ l ∈ rest, containsS l dictCloseM = true := by
        rcases h with ⟨l, hl, hpl⟩
        rcases List.mem_cons.mp hl with h' | h'
        · exact absurd (h' ▸ hpl) hd
        · exact ⟨l, h', hpl⟩
      rcases ih hex with ⟨l, hl, hpl⟩
      refine ⟨l, ?_, hpl⟩
      rw [show goEntCreate b ks (x :: rest) = x :: goEntCreate b ks rest by
        simp [goEntCreate, hd']]
      exact List.mem_cons_of_mem _ hl

theorem no_nl_entStringLine (v : Str) (h : nlc ∉ v) : nlc ∉ entStringLine v := by
  intro hm
  unfold entStringLine at hm
  rcases List.mem_append.mp hm with h1 | h1
  · rcases List.mem_append.mp h1 with h2 | h2
    · exact absurd h2 (by decide)
    · exact h h2
  · exact absurd h1 (by decide)

theorem no_nl_entArrayBlock (b : Str) (ks : List Str) (hb : nlc ∉ b)
    (hks : ∀ k ∈ ks, nlc ∉ k) : ∀ l ∈ entArrayBlock b ks, nlc ∉ l := by
  intro l hl
  rcases List.mem_cons.mp hl with h | h
  · rw [h]; decide
  rcases List.mem_cons.mp h with h2 | h2
  · rw [h2]; exact no_nl_entStringLine b hb
  · rcases List.mem_map.mp h2 with ⟨k, hk, hkl⟩
    rw [← hkl]
    exact no_nl_entStringLine k (hks k hk)

theorem no_nl_entCreateBlock (b : Str) (ks : List Str) (hb : nlc ∉ b)
    (hks : ∀ k ∈ ks, nlc ∉ k) : ∀ l ∈ entCreateBlock b ks, nlc ∉ l := by
  intro l hl
  unfold entCreateBlock at hl
  rcases List.mem_cons.mp hl with h | h
  · rw [h]; decide
  rcases List.mem_append.mp h with h2 | h2
  · exact no_nl_entArrayBlock b ks hb hks l h2
  · rcases List.mem_singleton.mp h2 with h3
    rw [h3]; decide

theorem lines_no_pat (content pat : Str) (hnl : nlc ∉ pat)
    (h : containsS content pat = false) :
    ∀ l ∈ splitNL content, containsS l pat = false := by
  intro l hl
  by_contra hx
  have hx' : containsS l pat = true := by
    cases hc : containsS l pat
    · exact absurd hc hx
    · rfl
  have := EntLemmas.containsS_of_line content pat l hnl hl hx'
  rw [h] at this
  cases this

end IdemEnt

namespace IdemEnt

/-- String-level idempotence of `updateEntitlementsFile` for clean values. -/
theorem ios_idem (content b : Str) (ks : List Str) (hb : cleanEntValue b)
    (hks : ∀ k ∈ ks, cleanEntValue k) :
    updateEntitlementsTransform (updateEntitlementsTransform content b ks) b ks =
      updateEntitlementsTransform content b ks := by
  have hblock := entArrayBlock_inert b ks hb hks
  have hbnl : nlc ∉ b := hb.1
  have hksnl : ∀ k ∈ ks, nlc ∉ k := fun k hk => (hks k hk).1
  by_cases hk : containsS content keyMarkerM = true
  · -- run 1 takes the update branch
    have hkl : ∃ l ∈ splitNL content, containsS l keyMarkerM = true :=
      EntLemmas.exists_line_of_containsS content keyMarkerM (by decide) hk
    have hrun1 : updateEntitlementsTransform content b ks =
        joinNL (goEntUpdate b ks (splitNL content) false) := by
      simp [updateEntitlementsTransform, updateEntLines, hk]
    obtain ⟨l0, hl0, hl0k⟩ := key_survives_update b ks (splitNL content) false hkl
    have hOne : goEntUpdate b ks (splitNL content) false ≠ [] :=
      List.ne_nil_of_mem hl0
    have hnlO : ∀ l ∈ goEntUpdate b ks (splitNL content) false, nlc ∉ l := by
      intro l hl
      rcases mem_goEntUpdate b ks _ _ l hl with h | h
      · exact SplitJoin.not_mem_of_mem_splitNL content l h
      · exact no_nl_entArrayBlock b ks hbnl hksnl l h
    have hsplitO : splitNL (joinNL (goEntUpdate b ks (splitNL content) false)) =
        goEntUpdate b ks (splitNL content) false :=
      SplitJoin.splitNL_joinNL _ hOne hnlO
    have hcontO : containsS (joinNL (goEntUpdate b ks (splitNL content) false))
        keyMarkerM = true :=
      (ContainsFacts.containsS_joinNL_iff _ keyMarkerM hOne (by decide)).mpr
        ⟨l0, hl0, hl0k⟩
    rw [hrun1]
    show updateEntitlementsTransform
      (joinNL (goEntUpdate b ks (splitNL content) false)) b ks =
      joinNL (goEntUpdate b ks (splitNL content) false)
    rw [show updateEntitlementsTransform
        (joinNL (goEntUpdate b ks (splitNL content) false)) b ks =
      joinNL (goEntUpdate b ks
        (splitNL (joinNL (goEntUpdate b ks (splitNL content) false))) false) by
        simp [updateEntitlementsTransform, updateEntLines, hcontO]]
    rw [hsplitO]
    exact congrArg joinNL (goEntUpdate_idem b ks hblock (splitNL content) false)
  · -- run 1 takes the create branch
    have hk' : containsS content keyMarkerM = false := by simpa using hk
    have hrun1 : updateEntitlementsTransform content b ks =
        joinNL (goEntCreate b ks (splitNL content)) := by
      simp [updateEntitlementsTransform, updateEntLines, hk']
    have hLnokey : ∀ l ∈ splitNL content, containsS l keyMarkerM = false :=
      lines_no_pat content keyMarkerM (by decide) hk'
    by_cases hd : ∃ l ∈ splitNL content, containsS l dictCloseM = true
    · obtain ⟨l0, hl0, hl0k⟩ := key_in_create b ks (splitNL content) hd
      have hOne : goEntCreate b ks (splitNL content) ≠ [] := List.ne_nil_of_mem hl0
      have hnlO : ∀ l ∈ goEntCreate b ks (splitNL content), nlc ∉ l := by
        intro l hl
        rcases mem_goEntCreate b ks _ l hl with h | h
        · exact SplitJoin.not_mem_of_mem_splitNL content l h
        · exact no_nl_entCreateBlock b ks hbnl hksnl l h
      have hsplitO : splitNL (joinNL (goEntCreate b ks (splitNL content))) =
          goEntCreate b ks (splitNL content) :=
        SplitJoin.splitNL_joinNL _ hOne hnlO
      have hcontO : containsS (joinNL (goEntCreate b ks (splitNL content)))
          keyMarkerM = true :=
        (ContainsFacts.containsS_joinNL_iff _ keyMarkerM hOne (by decide)).mpr
          ⟨l0, hl0, hl0k⟩
      rw [hrun1]
      rw [show updateEntitlementsTransform
          (joinNL (goEntCreate b ks (splitNL content))) b ks =
        joinNL (goEntUpdate b ks
          (splitNL (joinNL (goEntCreate b ks (splitNL content)))) false) by
          simp [updateEntitlementsTransform, updateEntLines, hcontO]]
      rw [hsplitO]
      exact congrArg joinNL
        (goEntCreate_then_update b ks hblock (splitNL content) hLnokey)
    · push_neg at hd
      have hd' : ∀ l ∈ splitNL content, containsS l dictCloseM = false :=
        fun l hl => by simpa using hd l hl
      have hid : goEntCreate b ks (splitNL content) = splitNL content :=
        EntLemmas.goEntCreate_no_anchor_id b ks _ hd'
      have hout : updateEntitlementsTransform content b ks = content := by
        rw [hrun1, hid, SplitJoin.joinNL_splitNL]
      rw [hout]
      exact hout

end IdemEnt

/-- A package name whose rendered entry line carries no newline and no close
marker; the idempotence of the manifest editor holds for such entries. -/
@[reducible]
def cleanEntry (p : Str) : Prop :=
  nlc ∉ p ∧ containsS (pkgEntryBare p) qCloseM = false

namespace IdemAndroid

theorem ws_of_mem_leadingWs (x : Str) :
    ∀ ch ∈ leadingWs x ++ strL "  ", isJsWs ch = true := by
  intro ch hch
  rcases List.mem_append.mp hch with h | h
  · exact List.mem_takeWhile_imp h
  · rcases List.mem_cons.mp h with h2 | h2
    · rw [h2]; rfl
    · rcases List.mem_cons.mp h2 with h3 | h3
      · rw [h3]; rfl
      · simp at h3

theorem no_nl_leadingWs (x : Str) (hx : nlc ∉ x) : nlc ∉ leadingWs x :=
  fun hm => hx ((List.takeWhile_sublist _).subset hm)

theorem pkgLine_isPkg (ind p : Str) : isPkgLine (pkgEntryLine ind p) = true := by
  have h1 : containsS (pkgEntryLine ind p) (strL "<package") = true := by
    apply ContainsFacts.containsS_append_right
    unfold pkgEntryBare
    rw [List.append_assoc]
    exact ContainsFacts.containsS_append_left _ _ _ (by decide)
  have h2 : containsS (pkgEntryLine ind p) (strL "android:name") = true := by
    apply ContainsFacts.containsS_append_right
    unfold pkgEntryBare
    rw [List.append_assoc]
    exact ContainsFacts.containsS_append_left _ _ _ (by decide)
  unfold isPkgLine
  rw [h1, h2]
  rfl

theorem pkgLine_no_qClose (ind p : Str) (hind : ∀ ch ∈ ind, isJsWs ch = true)
    (hp : containsS (pkgEntryBare p) qCloseM = false) :
    containsS (pkgEntryLine ind p) qCloseM = false := by
  unfold pkgEntryLine
  rw [ContainsFacts.containsS_ws_prepend ind (pkgEntryBare p) qCloseM '<' hind
    (by decide) (by decide)]
  exact hp

theorem no_nl_pkgLine (ind p : Str) (hind : nlc ∉ ind) (hp : nlc ∉ p) :
    nlc ∉ pkgEntryLine ind p := by
  intro hm
  unfold pkgEntryLine pkgEntryBare at hm
  rcases List.mem_append.mp hm with h | h
  · exact hind h
  rcases List.mem_append.mp h with h2 | h2
  · rcases List.mem_append.mp h2 with h3 | h3
    · exact absurd h3 (by decide)
    · exact hp h3
  · exact absurd h2 (by decide)

theorem mem_getD {L : List Str} {n : Nat} (h : n < L.length) : L.getD n [] ∈ L := by
  induction L generalizing n with
  | nil => simp at h
  | cons x t ih =>
    cases n with
    | zero => exact List.mem_cons_self _ _
    | succ m => exact List.mem_cons_of_mem _ (ih (by simpa using h))

theorem findIdxO_isSome {p : Str → Bool} {ls : List Str}
    (h : ∃ l ∈ ls, p l = true) : ∃ i, findIdxO p ls = some i := by
  induction ls with
  | nil => simp at h
  | cons x t ih =>
    by_cases hx : p x = true
    · exact ⟨0, FindIdx.findIdxO_cons_true t hx⟩
    · have hx' : p x = false := by simpa using hx
      have hex : ∃ l ∈ t, p l = true := by
        rcases h with ⟨l, hl, hpl⟩
        rcases List.mem_cons.mp hl with h' | h'
        · exact absurd (h' ▸ hpl) hx
        · exact ⟨l, h', hpl⟩
      rcases ih hex with ⟨i, hi⟩
      exact ⟨i + 1, by rw [FindIdx.findIdxO_cons_false t hx', hi]; rfl⟩

theorem findIdxO_concat_first (p : Str → Bool) (A B : List Str) (x : Str)
    (hA : ∀ l ∈ A, p l = false) (hx : p x = true) :
    findIdxO p (A ++ (x :: B)) = some A.length := by
  rw [FindIdx.findIdxO_append_right (x :: B) hA, FindIdx.findIdxO_cons_true B hx]
  simp

/-- The rebuild loop of the present branch is a fixpoint on documents already
in reconciled shape: a queries-free prefix `A`, the open-marker line `x`, the
rendered entries `P`, retained non-entry interior `F`, and the close-marker
line heading `D`. The anchor searches select `x` and the head of `D`, and
rebuilding reproduces the document unchanged. -/
theorem present_fixpoint (A : List Str) (x : Str) (P F D : List Str)
    (pkgs : List Str) (o : Nat)
    (hAlen : A.length = o)
    (hP : P = pkgs.map (pkgEntryLine (leadingWs x ++ strL "  ")))
    (hAopen : ∀ l ∈ A, containsS l qOpenM = false)
    (hxopen : containsS x qOpenM = true)
    (hAclose : ∀ l ∈ A, containsS l qCloseM = false)
    (hxclose : containsS x qCloseM = false)
    (hPclose : ∀ l ∈ P, containsS l qCloseM = false)
    (hPpkg : ∀ l ∈ P, isPkgLine l = true)
    (hFclose : ∀ l ∈ F, containsS l qCloseM = false)
    (hFfix : F.filter (fun l => !isPkgLine l) = F)
    (d : Str) (Dr : List Str) (hDd : D = d :: Dr)
    (hdclose : containsS d qCloseM = true) :
    findIdxO (fun l => containsS l qOpenM) (A ++ (x :: (P ++ (F ++ D)))) = some o ∧
    findIdxO (fun l => containsS l qCloseM) (A ++ (x :: (P ++ (F ++ D)))) =
      some (o + 1 + P.length + F.length) ∧
    goPresent o (o + 1 + P.length + F.length)
      (pkgs.map (pkgEntryLine
        (leadingWs ((A ++ (x :: (P ++ (F ++ D)))).getD o []) ++ strL "  ")))
      (A ++ (x :: (P ++ (F ++ D)))) 0 false = A ++ (x :: (P ++ (F ++ D))) := by
  have hgetD : (A ++ (x :: (P ++ (F ++ D)))).getD o [] = x := by
    rw [List.getD_append_right A _ [] o (by omega)]
    simp [hAlen]
  have hopen : findIdxO (fun l => containsS l qOpenM)
      (A ++ (x :: (P ++ (F ++ D)))) = some o := by
    rw [findIdxO_concat_first _ A _ x hAopen hxopen, hAlen]
  have hA2 : ∀ l ∈ A ++ (x :: (P ++ F)), containsS l qCloseM = false := by
    intro l hl
    rcases List.mem_append.mp hl with h | h
    · exact hAclose l h
    rcases List.mem_cons.mp h with h2 | h2
    · rw [h2]; exact hxclose
    rcases List.mem_append.mp h2 with h3 | h3
    · exact hPclose l h3
    · exact hFclose l h3
  have hclose : findIdxO (fun l => containsS l qCloseM)
      (A ++ (x :: (P ++ (F ++ D)))) = some (o + 1 + P.length + F.length) := by
    rw [show A ++ (x :: (P ++ (F ++ D))) = (A ++ (x :: (P ++ F))) ++ (d :: Dr) by
      rw [hDd]; simp]
    rw [findIdxO_concat_first _ _ Dr d hA2 hdclose]
    have hlen2 : (A ++ (x :: (P ++ F))).length = o + 1 + P.length + F.length := by
      simp [hAlen]
      omega
    rw [hlen2]
  have hoc2 : o < o + 1 + P.length + F.length := by omega
  have holen2 : o < (A ++ (x :: (P ++ (F ++ D)))).length := by
    simp [List.length_append, hAlen]
  have hrebuild := AndroidLemmas.goPresent_closed o (o + 1 + P.length + F.length)
    (pkgs.map (pkgEntryLine
      (leadingWs ((A ++ (x :: (P ++ (F ++ D)))).getD o []) ++ strL "  ")))
    (A ++ (x :: (P ++ (F ++ D)))) hoc2 holen2
  rw [hgetD, ← hP] at hrebuild
  have htake : (A ++ (x :: (P ++ (F ++ D)))).take (o + 1) = A ++ [x] := by
    rw [show A ++ (x :: (P ++ (F ++ D))) = (A ++ [x]) ++ (P ++ (F ++ D)) by simp]
    exact List.take_left' (by simp [hAlen])
  have hdrop1 : (A ++ (x :: (P ++ (F ++ D)))).drop (o + 1) = P ++ (F ++ D) := by
    rw [show A ++ (x :: (P ++ (F ++ D))) = (A ++ [x]) ++ (P ++ (F ++ D)) by simp]
    exact List.drop_left' (by simp [hAlen])
  have htake2 : (P ++ (F ++ D)).take (o + 1 + P.length + F.length - o - 1) =
      P ++ F := by
    rw [show o + 1 + P.length + F.length - o - 1 = P.length + F.length by omega]
    rw [show P ++ (F ++ D) = (P ++ F) ++ D by simp]
    exact List.take_left' (by simp)
  have hfilter : (P ++ F).filter (fun l => !isPkgLine l) = F := by
    rw [List.filter_append]
    rw [show P.filter (fun l => !isPkgLine l) = [] by
      rw [List.filter_eq_nil_iff]
      intro a ha
      simp [hPpkg a ha]]
    rw [hFfix]
    simp
  have hdropc : (A ++ (x :: (P ++ (F ++ D)))).drop (o + 1 + P.length + F.length) =
      D := by
    rw [show A ++ (x :: (P ++ (F ++ D))) = (A ++ (x :: (P ++ F))) ++ D by simp]
    refine List.drop_left' ?_
    simp [hAlen]
    omega
  rw [htake, hdrop1, htake2, hfilter, hdropc] at hrebuild
  refine ⟨hopen, hclose, ?_⟩
  rw [hgetD, ← hP, hrebuild]
  simp

end IdemAndroid

namespace IdemAndroid

theorem takeWhile_append_all (p : Char → Bool) (a b : Str)
    (h : ∀ c ∈ a, p c = true) :
    (a ++ b).takeWhile p = a ++ b.takeWhile p := by
  induction a with
  | nil => simp
  | cons c t ih =>
    have hc : p c = true := h c (List.mem_cons_self _ _)
    have ht : ∀ x ∈ t, p x = true := fun x hx => h x (List.mem_cons_of_mem _ hx)
    simp [List.takeWhile_cons, hc, ih ht]

/-- Inversion of the present branch of the transformation. -/
theorem transform_present_inv (content : Str) (pkgs : List Str) (out : Str)
    (hq : containsS content qOpenM = true)
    (h : setupQueriesTransform content pkgs = some out) :
    ∃ o c, selectedAnchors content = some (o, c) ∧
      out = joinNL (goPresent o c
        (pkgs.map (pkgEntryLine
          (leadingWs ((splitNL (normalizeQ content)).getD o []) ++ strL "  ")))
        (splitNL (normalizeQ content)) 0 false) := by
  unfold setupQueriesTransform at h
  rw [if_pos hq] at h
  cases ho : findIdxO (fun l => containsS l qOpenM) (splitNL (normalizeQ content)) with
  | none => rw [ho] at h; simp at h
  | some o =>
    cases hc : findIdxO (fun l => containsS l qCloseM) (splitNL (normalizeQ content)) with
    | none => rw [ho, hc] at h; simp at h
    | some c =>
      rw [ho, hc] at h
      simp only [Option.some_inj] at h
      refine ⟨o, c, ?_, h.symm⟩
      unfold selectedAnchors
      rw [if_pos hq, ho, hc]

/-- Inversion of the creation branch of the transformation. -/
theorem transform_create_inv (content : Str) (pkgs : List Str) (out : Str)
    (hq : containsS content qOpenM = false)
    (h : setupQueriesTransform content pkgs = some out) :
    ∃ a, findIdxO (fun l => containsS l appM) (splitNL content) = some a ∧
      a < (splitNL content).length ∧
      out = joinNL ((splitNL content).take a ++
        queriesBlock (leadingWs ((splitNL content).getD a [])) pkgs ++
        (splitNL content).drop a) := by
  cases ha : findIdxO (fun l => containsS l appM) (splitNL content) with
  | none =>
    rw [AndroidLemmas.transform_create_fail content pkgs hq ha] at h
    cases h
  | some a =>
    rw [AndroidLemmas.transform_create content pkgs hq ha] at h
    simp only [Option.some_inj] at h
    exact ⟨a, rfl, FindIdx.findIdxO_lt_length ha, h.symm⟩

end IdemAndroid

namespace IdemAndroid

/-- Idempotence of the manifest transformation when the first run takes the
present-section branch with properly ordered anchors. -/
theorem present_branch_idem (content : Str) (pkgs : List Str) (out : Str)
    (hp : ∀ p ∈ pkgs, cleanEntry p)
    (hq : containsS content qOpenM = true)
    (h1 : setupQueriesTransform content pkgs = some out)
    (h2 : hasEmptyQ out = false)
    (h3 : ∀ o' c', selectedAnchors content = some (o', c') → o' < c') :
    setupQueriesTransform out pkgs = some out := by
  obtain ⟨o, c, hanch, hout⟩ := transform_present_inv content pkgs out hq h1
  have hoc : o < c := h3 o c hanch
  obtain ⟨hq1, ho, hc⟩ := AndroidLemmas.selectedAnchors_inv hanch
  set L := splitNL (normalizeQ content) with hL
  set x := L.getD o [] with hxdef
  set P := pkgs.map (pkgEntryLine (leadingWs x ++ strL "  ")) with hPdef
  have holen := FindIdx.findIdxO_lt_length ho
  have hclen := FindIdx.findIdxO_lt_length hc
  rw [AndroidLemmas.goPresent_closed o c P L hoc holen] at hout
  set F := ((L.drop (o + 1)).take (c - o - 1)).filter (fun l => !isPkgLine l)
    with hFdef
  set D := L.drop c with hDdef
  have hshape : L.take (o + 1) ++ P ++ F ++ D =
      L.take o ++ (x :: (P ++ (F ++ D))) := by
    rw [ListFacts.take_succ_eq holen, ← hxdef]
    simp
  rw [hshape] at hout
  have hws := ws_of_mem_leadingWs x
  have hAlen : (L.take o).length = o := by
    simp [List.length_take]
    omega
  have hAopen : ∀ l ∈ L.take o, containsS l qOpenM = false :=
    FindIdx.forall_take_false (fun j hj => FindIdx.findIdxO_min ho j hj)
  have hxopen : containsS x qOpenM = true := by
    rw [hxdef]
    exact FindIdx.findIdxO_getD ho
  have hAclose : ∀ l ∈ L.take o, containsS l qCloseM = false :=
    FindIdx.forall_take_false (fun j hj => FindIdx.findIdxO_min hc j (by omega))
  have hxclose : containsS x qCloseM = false := by
    rw [hxdef]
    exact FindIdx.findIdxO_min hc o hoc
  have hPclose : ∀ l ∈ P, containsS l qCloseM = false := by
    intro l hl
    rw [hPdef] at hl
    rcases List.mem_map.mp hl with ⟨p, hpmem, hpe⟩
    rw [← hpe]
    exact pkgLine_no_qClose _ p hws (hp p hpmem).2
  have hPpkg : ∀ l ∈ P, isPkgLine l = true := by
    intro l hl
    rw [hPdef] at hl
    rcases List.mem_map.mp hl with ⟨p, hpmem, hpe⟩
    rw [← hpe]
    exact pkgLine_isPkg _ p
  have hFsub : ∀ l ∈ F, l ∈ L.take c := by
    intro l hl
    rw [hFdef] at hl
    have h1' := (List.filter_subset' _) hl
    have h2' : l ∈ (L.take c).drop (o + 1) := by
      rw [List.drop_take, show c - (o + 1) = c - o - 1 by omega]
      exact h1'
    exact (List.drop_subset _ _) h2'
  have hFclose : ∀ l ∈ F, containsS l qCloseM = false := by
    intro l hl
    exact FindIdx.forall_take_false (p := fun l => containsS l qCloseM)
      (fun j hj => FindIdx.findIdxO_min hc j hj) l (hFsub l hl)
  have hFfix : F.filter (fun l => !isPkgLine l) = F := by
    rw [hFdef, List.filter_filter]
    simp
  have hDd : D = L.getD c [] :: L.drop (c + 1) := by
    rw [hDdef]
    exact ListFacts.drop_eq_getD_cons hclen
  have hdclose : containsS (L.getD c []) qCloseM = true := FindIdx.findIdxO_getD hc
  obtain ⟨fopen, fclose, frebuild⟩ := present_fixpoint (L.take o) x P F D pkgs o
    hAlen hPdef hAopen hxopen hAclose hxclose hPclose hPpkg hFclose hFfix
    (L.getD c []) (L.drop (c + 1)) hDd hdclose
  have hLnl : ∀ l ∈ L, nlc ∉ l := by
    intro l hl
    rw [hL] at hl
    exact SplitJoin.not_mem_of_mem_splitNL _ l hl
  have hxin : x ∈ L := by
    rw [hxdef]
    exact mem_getD holen
  have hindnl : nlc ∉ leadingWs x ++ strL "  " := by
    intro hm
    rcases List.mem_append.mp hm with hmm | hmm
    · exact no_nl_leadingWs x (hLnl x hxin) hmm
    · exact absurd hmm (by decide)
  have hnl2 : ∀ l ∈ L.take o ++ (x :: (P ++ (F ++ D))), nlc ∉ l := by
    intro l hl
    rcases List.mem_append.mp hl with h | h
    · exact hLnl l ((List.take_subset _ _) h)
    rcases List.mem_cons.mp h with h' | h'
    · rw [h']
      exact hLnl x hxin
    rcases List.mem_append.mp h' with h'' | h''
    · rw [hPdef] at h''
      rcases List.mem_map.mp h'' with ⟨p, hpmem, hpe⟩
      rw [← hpe]
      exact no_nl_pkgLine _ p hindnl (hp p hpmem).1
    rcases List.mem_append.mp h'' with h3 | h3
    · exact hLnl l ((List.take_subset _ _) (hFsub l h3))
    · rw [hDdef] at h3
      exact hLnl l ((List.drop_subset _ _) h3)
  have hne2 : L.take o ++ (x :: (P ++ (F ++ D))) ≠ [] := by simp
  have hsplit2 : splitNL (joinNL (L.take o ++ (x :: (P ++ (F ++ D))))) =
      L.take o ++ (x :: (P ++ (F ++ D))) :=
    SplitJoin.splitNL_joinNL _ hne2 hnl2
  have hq2 : containsS (joinNL (L.take o ++ (x :: (P ++ (F ++ D))))) qOpenM = true :=
    (ContainsFacts.containsS_joinNL_iff _ _ hne2 (by decide)).mpr
      ⟨x, by simp, hxopen⟩
  have h2' : hasEmptyQ (joinNL (L.take o ++ (x :: (P ++ (F ++ D))))) = false := by
    rw [← hout]
    exact h2
  have hnorm : normalizeQ (joinNL (L.take o ++ (x :: (P ++ (F ++ D))))) =
      joinNL (L.take o ++ (x :: (P ++ (F ++ D)))) := by
    unfold normalizeQ
    rw [h2']
    simp
  rw [hout]
  unfold setupQueriesTransform
  rw [if_pos hq2, hnorm, hsplit2]
  simp only [fopen, fclose]
  rw [frebuild]

end IdemAndroid

namespace IdemAndroid

/-- Idempotence of the manifest transformation when the first run takes the
creation branch, provided the anchors found in the reconciled output are
properly ordered. -/
theorem create_branch_idem (content : Str) (pkgs : List Str) (out : Str)
    (hp : ∀ p ∈ pkgs, cleanEntry p)
    (hq : containsS content qOpenM = false)
    (h1 : setupQueriesTransform content pkgs = some out)
    (h2 : hasEmptyQ out = false)
    (h4 : ∀ o' c', selectedAnchors out = some (o', c') → o' < c') :
    setupQueriesTransform out pkgs = some out := by
  obtain ⟨a, ha, halen, hout⟩ := transform_create_inv content pkgs out hq h1
  set L := splitNL content with hL
  set ind := leadingWs (L.getD a []) with hinddef
  set x := ind ++ strL "<queries>" with hxdef
  set d := ind ++ strL "</queries>" with hddef
  set P := pkgs.map (pkgEntryLine (ind ++ strL "  ")) with hPdef
  have hshape : L.take a ++ queriesBlock ind pkgs ++ L.drop a =
      L.take a ++ (x :: (P ++ (d :: (([] : Str) :: L.drop a)))) := by
    simp only [queriesBlock]
    rw [← hxdef, ← hddef, ← hPdef]
    simp
  rw [hshape] at hout
  have hws : ∀ ch ∈ ind, isJsWs ch = true := by
    rw [hinddef]
    intro ch hch
    exact List.mem_takeWhile_imp hch
  have hall : ∀ l ∈ L, containsS l qOpenM = false := by
    rw [hL]
    exact IdemEnt.lines_no_pat content qOpenM (by decide) hq
  have hAlen : (L.take a).length = a := by
    simp [List.length_take]
    omega
  have hAopen : ∀ l ∈ L.take a, containsS l qOpenM = false :=
    fun l hl => hall l ((List.take_subset _ _) hl)
  have hxopen : containsS x qOpenM = true := by
    rw [hxdef]
    exact ContainsFacts.containsS_append_right _ _ _ (by decide)
  have hdclose : containsS d qCloseM = true := by
    rw [hddef]
    exact ContainsFacts.containsS_append_right _ _ _ (by decide)
  have hxclose : containsS x qCloseM = false := by
    rw [hxdef]
    rw [ContainsFacts.containsS_ws_prepend ind (strL "<queries>") qCloseM '<' hws
      (by decide) (by decide)]
    decide
  have hleadx : leadingWs x = ind := by
    rw [hxdef]
    unfold leadingWs
    rw [takeWhile_append_all isJsWs ind (strL "<queries>") hws]
    rw [show (strL "<queries>").takeWhile isJsWs = [] by decide]
    simp
  have hPfix : P = pkgs.map (pkgEntryLine (leadingWs x ++ strL "  ")) := by
    rw [hleadx, hPdef]
  have hws2 : ∀ ch ∈ ind ++ strL "  ", isJsWs ch = true := by
    rw [← hleadx]
    exact ws_of_mem_leadingWs x
  have hPclose : ∀ l ∈ P, containsS l qCloseM = false := by
    intro l hl
    rw [hPdef] at hl
    rcases List.mem_map.mp hl with ⟨p, hpmem, hpe⟩
    rw [← hpe]
    exact pkgLine_no_qClose _ p hws2 (hp p hpmem).2
  have hPpkg : ∀ l ∈ P, isPkgLine l = true := by
    intro l hl
    rw [hPdef] at hl
    rcases List.mem_map.mp hl with ⟨p, hpmem, hpe⟩
    rw [← hpe]
    exact pkgLine_isPkg _ p
  have fopen0 : findIdxO (fun l => containsS l qOpenM)
      (L.take a ++ (x :: (P ++ (d :: (([] : Str) :: L.drop a))))) = some a := by
    rw [findIdxO_concat_first _ (L.take a) _ x hAopen hxopen, hAlen]
  have hdin : d ∈ L.take a ++ (x :: (P ++ (d :: (([] : Str) :: L.drop a)))) := by
    apply List.mem_append_right
    apply List.mem_cons_of_mem
    apply List.mem_append_right
    exact List.mem_cons_self _ _
  obtain ⟨c2, hc2⟩ :=
    findIdxO_isSome (p := fun l => containsS l qCloseM) ⟨d, hdin, hdclose⟩
  have hLnl : ∀ l ∈ L, nlc ∉ l := by
    intro l hl
    rw [hL] at hl
    exact SplitJoin.not_mem_of_mem_splitNL _ l hl
  have hindnl : nlc ∉ ind := by
    rw [hinddef]
    exact no_nl_leadingWs _ (hLnl _ (mem_getD halen))
  have hind2nl : nlc ∉ ind ++ strL "  " := by
    intro hm
    rcases List.mem_append.mp hm with hmm | hmm
    · exact hindnl hmm
    · exact absurd hmm (by decide)
  have hnl2 : ∀ l ∈ L.take a ++ (x :: (P ++ (d :: (([] : Str) :: L.drop a)))),
      nlc ∉ l := by
    intro l hl
    rcases List.mem_append.mp hl with h | h
    · exact hLnl l ((List.take_subset _ _) h)
    rcases List.mem_cons.mp h with h' | h'
    · rw [h', hxdef]
      intro hm
      rcases List.mem_append.mp hm with hmm | hmm
      · exact hindnl hmm
      · exact absurd hmm (by decide)
    rcases List.mem_append.mp h' with h'' | h''
    · rw [hPdef] at h''
      rcases List.mem_map.mp h'' with ⟨p, hpmem, hpe⟩
      rw [← hpe]
      exact no_nl_pkgLine _ p hind2nl (hp p hpmem).1
    rcases List.mem_cons.mp h'' with h3 | h3
    · rw [h3, hddef]
      intro hm
      rcases List.mem_append.mp hm with hmm | hmm
      · exact hindnl hmm
      · exact absurd hmm (by decide)
    rcases List.mem_cons.mp h3 with h4' | h4'
    · rw [h4']
      simp
    · exact hLnl l ((List.drop_subset _ _) h4')
  have hne2 : L.take a ++ (x :: (P ++ (d :: (([] : Str) :: L.drop a)))) ≠ [] := by
    simp
  have hsplit2 :
      splitNL (joinNL (L.take a ++ (x :: (P ++ (d :: (([] : Str) :: L.drop a)))))) =
      L.take a ++ (x :: (P ++ (d :: (([] : Str) :: L.drop a)))) :=
    SplitJoin.splitNL_joinNL _ hne2 hnl2
  have hq2 : containsS
      (joinNL (L.take a ++ (x :: (P ++ (d :: (([] : Str) :: L.drop a))))))
      qOpenM = true :=
    (ContainsFacts.containsS_joinNL_iff _ _ hne2 (by decide)).mpr
      ⟨x, by simp, hxopen⟩
  have h2' : hasEmptyQ
      (joinNL (L.take a ++ (x :: (P ++ (d :: (([] : Str) :: L.drop a)))))) =
      false := by
    rw [← hout]
    exact h2
  have hnorm : normalizeQ
      (joinNL (L.take a ++ (x :: (P ++ (d :: (([] : Str) :: L.drop a)))))) =
      joinNL (L.take a ++ (x :: (P ++ (d :: (([] : Str) :: L.drop a))))) := by
    unfold normalizeQ
    rw [h2']
    simp
  have hanch2 : selectedAnchors
      (joinNL (L.take a ++ (x :: (P ++ (d :: (([] : Str) :: L.drop a)))))) =
      some (a, c2) := by
    unfold selectedAnchors
    rw [if_pos hq2, hnorm, hsplit2, fopen0, hc2]
  have hac : a < c2 := h4 a c2 (by rw [hout]; exact hanch2)
  have hAclose : ∀ l ∈ L.take a, containsS l qCloseM = false := by
    have htk : (L.take a ++ (x :: (P ++ (d :: (([] : Str) :: L.drop a))))).take a =
        L.take a := List.take_left' hAlen
    have hmin : ∀ j, j < a →
        containsS
          ((L.take a ++ (x :: (P ++ (d :: (([] : Str) :: L.drop a))))).getD j [])
          qCloseM = false :=
      fun j hj => FindIdx.findIdxO_min hc2 j (by omega)
    intro l hl
    refine FindIdx.forall_take_false (p := fun l => containsS l qCloseM)
      (L := L.take a ++ (x :: (P ++ (d :: (([] : Str) :: L.drop a))))) (n := a)
      hmin l ?_
    rw [htk]
    exact hl
  obtain ⟨fopen, fclose, frebuild⟩ := present_fixpoint (L.take a) x P []
    (d :: (([] : Str) :: L.drop a)) pkgs a hAlen hPfix hAopen hxopen hAclose
    hxclose hPclose hPpkg (by simp) (by simp) d (([] : Str) :: L.drop a) rfl
    hdclose
  simp only [List.nil_append, List.length_nil, Nat.add_zero] at fopen fclose frebuild
  rw [hout]
  unfold setupQueriesTransform
  rw [if_pos hq2, hnorm, hsplit2]
  simp only [fopen, fclose]
  rw [frebuild]

end IdemAndroid

/-- C1 counterexample: reconciliation is not idempotent for every document
and desired-entry list. With the entry `a</queries>` the creation path
renders an entry line containing a close marker; the second run then selects
that line as the close anchor and duplicates the entries, so applying the
edit twice differs from applying it once. -/
theorem claimC1_counterexample :
    (setupQueriesTransform (strL "<manifest>\n  <application>\n</manifest>")
        [strL "a</queries>", strL "b"]).bind
      (fun once => setupQueriesTransform once [strL "a</queries>", strL "b"]) ≠
    setupQueriesTransform (strL "<manifest>\n  <application>\n</manifest>")
      [strL "a</queries>", strL "b"] := by
  decide

/-- C1 (amended): both section reconciliations are idempotent, provided the
desired entries are clean — no newline inside an entry, and a rendered entry
line contains no marker its editor searches for — and, for the manifest
editor, the once-reconciled output contains no empty-queries form and the
anchor pairs selected in the input and in the output are properly ordered
(open line before close line), which holds for well-formed manifests. -/
theorem claimC1_idempotence_amended :
    (∀ content pkgs out, (∀ p ∈ pkgs, cleanEntry p) →
      setupQueriesTransform content pkgs = some out →
      hasEmptyQ out = false →
      (∀ o c, selectedAnchors content = some (o, c) → o < c) →
      (∀ o c, selectedAnchors out = some (o, c) → o < c) →
      setupQueriesTransform out pkgs = some out) ∧
    (∀ content b ks, cleanEntValue b → (∀ k ∈ ks, cleanEntValue k) →
      updateEntitlementsTransform (updateEntitlementsTransform content b ks) b ks =
        updateEntitlementsTransform content b ks) := by
  constructor
  · intro content pkgs out hp h1 h2 h3 h4
    by_cases hq : containsS content qOpenM = true
    · exact IdemAndroid.present_branch_idem content pkgs out hp hq h1 h2 h3
    · exact IdemAndroid.create_branch_idem content pkgs out hp
        (by simpa using hq) h1 h2 h4
  · intro content b ks hb hks
    exact IdemEnt.ios_idem content b ks hb hks

/-- Witness for the amended C1 (manifest conjunct) at a concrete manifest:
reapplying the reconciliation to its own output reproduces the output. -/
theorem claimC1_witness :
    setupQueriesTransform
      (strL "<m>\n  <queries>\n    <package android:name=\"com.a\" />\n  </queries>\n  <application>\n</m>")
      [strL "com.a"] =
      some (strL "<m>\n  <queries>\n    <package android:name=\"com.a\" />\n  </queries>\n  <application>\n</m>") :=
  claimC1_idempotence_amended.1
    (strL "<m>\n  <queries>\n  </queries>\n  <application>\n</m>")
    [strL "com.a"]
    (strL "<m>\n  <queries>\n    <package android:name=\"com.a\" />\n  </queries>\n  <application>\n</m>")
    (by decide) (by decide) (by decide)
    (by
      intro o c hx
      rw [show selectedAnchors (strL "<m>\n  <queries>\n  </queries>\n  <application>\n</m>") =
        some (1, 2) by decide] at hx
      simp at hx
      omega)
    (by
      intro o c hx
      rw [show selectedAnchors
        (strL "<m>\n  <queries>\n    <package android:name=\"com.a\" />\n  </queries>\n  <application>\n</m>") =
        some (1, 3) by decide] at hx
      simp at hx
      omega)
